import Mathlib

/-!
# DiceForge `LFSR<T>`: a shallow embedding of `lfsr.hpp`

The class template `LFSR<T>` is embedded for an unsigned integer type `T` whose
size in bytes is the parameter `sizeofT` (so `u_int64_t` is `sizeofT = 8`).

* values of type `T` are natural numbers, reduced modulo `2 ^ (sizeofT * 8)` at
  every assignment to a `T` variable;
* arithmetic on operands narrower than `int` is carried out in the promoted
  type (32 bits), as the C++ integral promotions prescribe;
* the operations whose behaviour C++ leaves undefined (a shift count that is
  not below the width of the promoted operand, a conversion from floating
  point to `T` whose truncated value `T` cannot hold) and a zero divisor are
  explicit `Fault`s, so that totality is a theorem and not an assumption;
* `long double` has two readings, both over `ℚ`. `LFSR.rand` and
  `LFSR.random_min_max` are the exact reading, in which no operation rounds;
  it is the reading under which unit-interval and range containment are
  stated. `LFSR.rand_long_double` and `LFSR.random_min_max_long_double` are
  the arithmetic the compiled code performs in the x87 extended format: every
  conversion, quotient, product and sum is rounded to 64 significand bits, to
  nearest, ties to even. The integer state of the generator is the same in
  both readings.
-/

namespace DiceForge

/-! ## Data model -/

/-- Conditions under which an operation of the generator has no defined result. -/
inductive Fault where
  | shiftCount
  | zeroDivisor
  | conversionRange
  deriving DecidableEq

/-- Data members of `LFSR<T>` (lfsr.hpp, lines 20-21). -/
structure LFSR where
  seed : Nat
  curr : Nat
  deriving DecidableEq

/-- Number of bits of `T`: `sizeof(T) * 8`. -/
def bits (sizeofT : Nat) : Nat := sizeofT * 8

/-- Width of the type in which shifts and sums on `T` operands are evaluated:
`int` (32 bits) for the types narrower than `int`, `T` itself otherwise. -/
def promotedBits (sizeofT : Nat) : Nat :=
  if bits sizeofT < 32 then 32 else bits sizeofT

/-- Conversion of an unsigned value to `T` (assignment to a `T` variable). -/
def toT (sizeofT : Nat) (x : Nat) : Nat := x % 2 ^ bits sizeofT

/-- Conversion of a signed 64-bit count to `T`. -/
def intToT (sizeofT : Nat) (x : Int) : Nat := (x % 2 ^ bits sizeofT).toNat

/-- Value of `std::numeric_limits<T>::max()`. -/
def numericLimitsMax (sizeofT : Nat) : Nat := 2 ^ bits sizeofT - 1

/-- Right shift `v >> k` in the promoted type. -/
def shr (sizeofT : Nat) (v k : Nat) : Except Fault Nat :=
  if k < promotedBits sizeofT then .ok (v >>> k) else .error .shiftCount

/-- Left shift `v << k` in the promoted type. -/
def shl (sizeofT : Nat) (v k : Nat) : Except Fault Nat :=
  if k < promotedBits sizeofT then .ok ((v <<< k) % 2 ^ promotedBits sizeofT)
  else .error .shiftCount

/-- Sum `a + b` in the promoted type. -/
def addP (sizeofT : Nat) (a b : Nat) : Nat := (a + b) % 2 ^ promotedBits sizeofT

/-- Difference `max - min` of two `T` operands in the promoted type: a signed
`int` difference for the narrow types, a wrapping unsigned one otherwise. -/
def subP (sizeofT : Nat) (a b : Nat) : Int :=
  if bits sizeofT < 32 then (a : Int) - (b : Int)
  else ((a : Int) - (b : Int)) % 2 ^ bits sizeofT

/-- Quotient of two `long double` values, read exactly (no rounding). -/
def fdiv (a b : ℚ) : Except Fault ℚ :=
  if b = 0 then .error .zeroDivisor else .ok (a / b)

/-- Rounding toward zero, the rule of a floating-to-integer conversion. -/
def truncate (q : ℚ) : Int := if 0 ≤ q then ⌊q⌋ else ⌈q⌉

/-- Conversion `T(q)` of a `long double` to `T`. -/
def longDoubleToT (sizeofT : Nat) (q : ℚ) : Except Fault Nat :=
  if 0 ≤ truncate q ∧ truncate q < 2 ^ bits sizeofT then .ok (truncate q).toNat
  else .error .conversionRange

/-! ## Constructor (lfsr.hpp, lines 59-67) -/

/-- Constructor `LFSR<T>::LFSR(T seed)`. The argument `now` is the value of
`std::chrono::system_clock::now().time_since_epoch().count()` at the call. -/
def LFSR.ctor (sizeofT : Nat) (seed : Nat) (now : Int) : LFSR :=
  let seed := if seed ≤ 0 then intToT sizeofT now else seed
  { seed := seed, curr := seed }

/-! ## `random()` (lfsr.hpp, lines 69-85) -/

/-- Body of the `for` loop of `random()` (lines 75-81), acting on the local
`rand_num` and on the object. -/
def LFSR.random_body (sizeofT : Nat) (p : Nat × LFSR) : Except Fault (Nat × LFSR) := do
  let (rand_num, self) := p
  let a ← shr sizeofT rand_num 7
  let rand_num := toT sizeofT (rand_num ^^^ a)
  let b ← shl sizeofT rand_num 9
  let rand_num := toT sizeofT (rand_num ^^^ b)
  let c ← shr sizeofT rand_num 13
  let rand_num := toT sizeofT (rand_num ^^^ c)
  let new_bit : Bool := decide (rand_num &&& 1 ≠ 0)
  let d ← shl sizeofT rand_num 1
  let rand_num := toT sizeofT (addP sizeofT d new_bit.toNat)
  let e ← shr sizeofT self.curr 1
  let g ← shl sizeofT self.curr (sizeofT * 8 - 1)
  let self := { self with curr := toT sizeofT (e ||| g) }
  pure (rand_num, self)

/-- The loop `for (int i = 0; i < 4; i++)` of `random()`, with `k` iterations
still to run. -/
def LFSR.random_loop (sizeofT : Nat) : Nat → Nat × LFSR → Except Fault (Nat × LFSR)
  | 0, p => pure p
  | k + 1, p => do
    let p ← LFSR.random_body sizeofT p
    LFSR.random_loop sizeofT k p

/-- Member function `T LFSR<T>::random()`: the returned value and the object
after the call. -/
def LFSR.random (sizeofT : Nat) (self : LFSR) : Except Fault (Nat × LFSR) := do
  let rand_num := self.curr
  let (rand_num, self) ← LFSR.random_loop sizeofT 4 (rand_num, self)
  let self := { self with curr := rand_num }
  pure (self.curr, self)

/-! ## `rand()` (lfsr.hpp, lines 87-104) -/

/-- Body of the `for` loop of `rand()` (lines 93-99). -/
def LFSR.rand_body (sizeofT : Nat) (p : Nat × LFSR) : Except Fault (Nat × LFSR) := do
  let (rand_num, self) := p
  let a ← shr sizeofT rand_num 7
  let rand_num := toT sizeofT (rand_num ^^^ a)
  let b ← shl sizeofT rand_num 9
  let rand_num := toT sizeofT (rand_num ^^^ b)
  let c ← shr sizeofT rand_num 13
  let rand_num := toT sizeofT (rand_num ^^^ c)
  let new_bit : Bool := decide (rand_num &&& 1 ≠ 0)
  let d ← shl sizeofT rand_num 1
  let rand_num := toT sizeofT (addP sizeofT d new_bit.toNat)
  let e ← shr sizeofT self.curr 1
  let g ← shl sizeofT self.curr (sizeofT * 8 - 1)
  let self := { self with curr := toT sizeofT (e ||| g) }
  pure (rand_num, self)

/-- The loop `for (int i = 0; i < 4; i++)` of `rand()`, with `k` iterations
still to run. -/
def LFSR.rand_loop (sizeofT : Nat) : Nat → Nat × LFSR → Except Fault (Nat × LFSR)
  | 0, p => pure p
  | k + 1, p => do
    let p ← LFSR.rand_body sizeofT p
    LFSR.rand_loop sizeofT k p

/-- Member function `long double LFSR<T>::rand()`, the quotient of line 103 read
exactly (no rounding). -/
def LFSR.rand (sizeofT : Nat) (self : LFSR) : Except Fault (ℚ × LFSR) := do
  let rand_num := self.curr
  let (rand_num, self) ← LFSR.rand_loop sizeofT 4 (rand_num, self)
  let self := { self with curr := rand_num }
  let q ← fdiv (rand_num : ℚ) (numericLimitsMax sizeofT : ℚ)
  pure (q, self)

/-! ## `random(min, max)` (lfsr.hpp, lines 105-109) -/

/-- Member function `T LFSR<T>::random(T min, T max)`, the product and the sum of
line 108 read exactly (no rounding). -/
def LFSR.random_min_max (sizeofT : Nat) (self : LFSR) (min max : Nat) :
    Except Fault (Nat × LFSR) := do
  let (rand_num, self) ← LFSR.rand sizeofT self
  let r ← longDoubleToT sizeofT ((min : ℚ) + (subP sizeofT max min : ℚ) * rand_num)
  pure (r, self)

/-! ## `rand()` and `random(min, max)` in `long double` arithmetic -/

/-- Nearest integer, ties to the even one. -/
def roundHalfEven (y : ℚ) : Int :=
  if y - ⌊y⌋ < 1 / 2 then ⌊y⌋
  else if 1 / 2 < y - ⌊y⌋ then ⌊y⌋ + 1
  else if ⌊y⌋ % 2 = 0 then ⌊y⌋ else ⌊y⌋ + 1

/-- Rounding of a real value to `long double` in the x87 extended format: 64
significand bits, to nearest, ties to even. The exponent range is not modelled;
the values met here, between `2 ^ (-64)` and `2 ^ 128`, lie far inside it. -/
def roundLongDouble (x : ℚ) : ℚ :=
  if x = 0 then 0
  else (roundHalfEven (x * 2 ^ (63 - Int.log 2 |x|)) : ℚ) / 2 ^ (63 - Int.log 2 |x|)

/-- Conversion of an integer value to `long double`. -/
def toLongDouble (k : Int) : ℚ := roundLongDouble (k : ℚ)

/-- Quotient of two `long double` values, rounded. -/
def fdivLongDouble (a b : ℚ) : Except Fault ℚ :=
  if b = 0 then .error .zeroDivisor else .ok (roundLongDouble (a / b))

/-- Member function `long double LFSR<T>::rand()` (lines 87-104) with the
conversions and the quotient of line 103 rounded as the code rounds them. -/
def LFSR.rand_long_double (sizeofT : Nat) (self : LFSR) : Except Fault (ℚ × LFSR) := do
  let rand_num := self.curr
  let (rand_num, self) ← LFSR.rand_loop sizeofT 4 (rand_num, self)
  let self := { self with curr := rand_num }
  let q ← fdivLongDouble (toLongDouble rand_num) (toLongDouble (numericLimitsMax sizeofT))
  pure (q, self)

/-- Member function `T LFSR<T>::random(T min, T max)` (lines 105-109) with the
conversions, the product and the sum of line 108 rounded as the code rounds them. -/
def LFSR.random_min_max_long_double (sizeofT : Nat) (self : LFSR) (min max : Nat) :
    Except Fault (Nat × LFSR) := do
  let (rand_num, self) ← LFSR.rand_long_double sizeofT self
  let r ← longDoubleToT sizeofT
    (roundLongDouble (toLongDouble min
      + roundLongDouble (toLongDouble (subP sizeofT max min) * rand_num)))
  pure (r, self)

/-! ## Call sequences -/

/-- One call of a generation operation, with its arguments. -/
inductive Call where
  | random
  | rand
  | random_min_max (min max : Nat)
  deriving DecidableEq

/-- Value returned by a generation operation. -/
inductive Output where
  | integer (v : Nat)
  | real (u : ℚ)
  deriving DecidableEq

/-- Performs one call on the generator. -/
def LFSR.call (sizeofT : Nat) (self : LFSR) : Call → Except Fault (Output × LFSR)
  | .random => do
    let (v, self) ← LFSR.random sizeofT self
    pure (.integer v, self)
  | .rand => do
    let (u, self) ← LFSR.rand sizeofT self
    pure (.real u, self)
  | .random_min_max min max => do
    let (v, self) ← LFSR.random_min_max sizeofT self min max
    pure (.integer v, self)

/-- Drives the generator through a sequence of calls, collecting the outputs in order. -/
def LFSR.drive (sizeofT : Nat) (self : LFSR) : List Call → Except Fault (List Output × LFSR)
  | [] => pure ([], self)
  | c :: cs => do
    let (o, self) ← LFSR.call sizeofT self c
    let (os, self) ← LFSR.drive sizeofT self cs
    pure (o :: os, self)

/-! ## The harness loop (LinearFeedbackShiftRegister.cpp, lines 14-18) -/

/-- Values that `count` successive calls `rng.random()` of the loop of `main`
return, in the order in which the loop writes them. -/
def harness_outputs (sizeofT : Nat) : Nat → LFSR → Except Fault (List Nat)
  | 0, _ => pure []
  | count + 1, rng => do
    let (rand_num, rng) ← LFSR.random sizeofT rng
    let rest ← harness_outputs sizeofT count rng
    pure (rand_num :: rest)

/-- A call whose arguments the contract of the operation admits: `random(min, max)`
is called with `min <= max`, both values of type `T`. -/
def Call.wellFormed (sizeofT : Nat) : Call → Prop
  | .random => True
  | .rand => True
  | .random_min_max min max => min ≤ max ∧ max < 2 ^ bits sizeofT

/-! ## Closed forms used in the proofs -/

/-- Effect of one loop iteration on the local `rand_num`. -/
def mixRound (sizeofT : Nat) (v : Nat) : Nat :=
  let v1 := toT sizeofT (v ^^^ (v >>> 7))
  let v2 := toT sizeofT (v1 ^^^ ((v1 <<< 9) % 2 ^ promotedBits sizeofT))
  let v3 := toT sizeofT (v2 ^^^ (v2 >>> 13))
  toT sizeofT (addP sizeofT ((v3 <<< 1) % 2 ^ promotedBits sizeofT)
    (decide (v3 &&& 1 ≠ 0)).toNat)

/-- Effect of one loop iteration on the member `curr`: a rotation to the right by one bit. -/
def rotateRight (sizeofT : Nat) (c : Nat) : Nat :=
  toT sizeofT ((c >>> 1) ||| ((c <<< (sizeofT * 8 - 1)) % 2 ^ promotedBits sizeofT))

/-- The value `f(v)` of the specification for width 64: the three xorshift
steps followed by `(m << 1) + (m & 1)`, all arithmetic modulo `2 ^ 64`. -/
def specRound64 (v : Nat) : Nat :=
  let m := (v ^^^ (v >>> 7)) % 2 ^ 64
  let m := (m ^^^ (m <<< 9)) % 2 ^ 64
  let m := (m ^^^ (m >>> 13)) % 2 ^ 64
  ((m <<< 1) + (m &&& 1)) % 2 ^ 64

/-- The three xorshift steps of one round of the specification for width 64,
before the feedback bit is reinserted. -/
def xorshift64 (v : Nat) : Nat :=
  let m := (v ^^^ (v >>> 7)) % 2 ^ 64
  let m := (m ^^^ (m <<< 9)) % 2 ^ 64
  (m ^^^ (m >>> 13)) % 2 ^ 64

/-- A call whose arguments are values of type `T`; `min <= max` is not required. -/
def Call.argumentsInRange (sizeofT : Nat) : Call → Prop
  | .random => True
  | .rand => True
  | .random_min_max min max => min < 2 ^ bits sizeofT ∧ max < 2 ^ bits sizeofT

/-- The output of a call made on a generator whose state is zero. -/
def Call.zeroOutput : Call → Output
  | .random => .integer 0
  | .rand => .real 0
  | .random_min_max min _ => .integer min

/-- Four rounds of the specification: the whole advance step for width 64. -/
def advance64 (x : Nat) : Nat := specRound64 (specRound64 (specRound64 (specRound64 x)))

/-- The successive values of the advance step from `x`: `count` of them. -/
def orbit64 : Nat → Nat → List Nat
  | 0, _ => []
  | count + 1, x => advance64 x :: orbit64 count (advance64 x)

/-- The non-zero state that one advance step sends to zero. -/
def seedK : Nat := 0x98BDBF1C19224C99

/-- The non-zero state that one advance step leaves unchanged. -/
def seedP : Nat := 0xAC25FD06727F2957

/-- A state of width 64 from which the outputs are not constant. -/
def Regular (x : Nat) : Prop :=
  x < 2 ^ 64 ∧ x ≠ 0 ∧ x ≠ seedK ∧ x ≠ seedP ∧ x ≠ seedK ^^^ seedP

/-- A map that commutes with bitwise exclusive or. -/
def XorLinear (g : Nat → Nat) : Prop := ∀ a b, g (a ^^^ b) = g a ^^^ g b

/-- The xor of the entries of a table selected by the bits of `y`, lowest bit first. -/
def applyTable : List Nat → Nat → Nat
  | [], _ => 0
  | c :: cs, y => (if y.testBit 0 then c else 0) ^^^ applyTable cs (y >>> 1)

/-- Columns of a left inverse of the advance step on the states with bit 0 clear. -/
def kernelTable : List Nat := [
    0x0000000000000000, 0xB527F84F1631AE52, 0x268E14BB9B52CBC0, 0x851C248200FDD9B4,
    0x78528B26E48D5222, 0xB92A21D7009C9E30, 0x3D0FFB5A731D2816, 0xC603C96AE89A3558,
    0xA03C9187F8428052, 0x2F90500D61BA66B8, 0xD0EFC5F494272B04, 0x1D014A73F4B0D4F6,
    0x5C0FCC28840C5E0E, 0x28071C5BB1D2C1AE, 0x75F288B8A325A43A, 0x925A625B16538C6C,
    0xEE6BFC6559EBCD98, 0x953264203943654C, 0x84D65843242ED208, 0x56A49051D4C8E19C,
    0x11A60AC0C6A8CCDA, 0xCA2204B8FC981312, 0x70D32BCEADE919C2, 0xB1A16B6F1EAB3BD0,
    0x6B09422B97966952, 0xF8B503D6B9B404D6, 0xE556DDC90BA65610, 0x522E2640707BF98C,
    0xBB8FD448D4D5D06C, 0x5D45CBC7C18202F4, 0xF01AF857C6AD575E, 0x572D691CA2A03366,
    0xD27504B86F25BE0C, 0x2EBED168B9205232, 0xDE495597A043F060, 0x846906D5E058533C,
    0xD2BF63C9C19B612E, 0xC1125D4D1DF71C80, 0xC94461D1BF9E0610, 0x23148DAA51F4226A,
    0x58BB3B01965C3F68, 0xB4FE22D45AEA8CF8, 0xBBA8E5335103EAAC, 0xEB745BAC967845A2,
    0xD01069904F246D14, 0xBE20FDA39E1E2390, 0xE981734E49345528, 0x6EA28F5B8C307A5E,
    0x0384FED8E04FC92A, 0x0DE0671FF688511E, 0xC0FE6BA94BCEECC4, 0xF0CF85EBD8854F56,
    0xA4E0B6B8B799C22E, 0xED21738F8586BE6E, 0xA342510C56881982, 0x317096EE1FC0B1AE,
    0x8F8EACFE419E9B06, 0x7ABFCF3742397752, 0x2E7FB17001954174, 0x192DC199F36B5656,
    0x8192AFF0EFEB8D7A, 0xA5A42B489BE2F1E4, 0x83A28DABD10E3A96, 0x36615CCABA361DB8]

/-- Columns of a left inverse of `x ↦ advance64 x ^^^ x` on the states with bit 0 clear. -/
def fixedPointTable : List Nat := [
    0x027899C24A7EE1EA, 0x0000000000000000, 0x605A2AF44359FC48, 0x11367E977358E50E,
    0x63B6EB2F5EBAE15C, 0x1AFE3972E11C2562, 0xA77D2DB209DE88BA, 0x6A094810D11E3FC4,
    0xA61621376589C342, 0x1CE9ABF642240A0C, 0x5B09D8C4BB64F9CA, 0xA582D256C39ECA4A,
    0x16596200F4C6C73A, 0xD40C0D23F1407FAA, 0xB453B38388D04E08, 0x1874A1EBEB1356E4,
    0x3DD3DD809EE251F8, 0x3C0C3B586D475AFE, 0x2097684DC8C670D2, 0x2F77A10D24DD7C64,
    0x599C795E7237977A, 0xB78DB899BB33F022, 0x85EC6AC425D6B62E, 0xF926086934215D20,
    0xA22922D2FA2954E2, 0x3D9F072C93D28ABC, 0x820B46E7C57280F8, 0xD9B9BA0C163181DA,
    0xE6FFEE9E2434B7AA, 0x1406A6E0F4149F3E, 0xF313EA1B2F816608, 0xE482F5E1975ADFD2,
    0xD8A0D5959A0F53C0, 0x5B1385CEAD8B7422, 0x512AA435B089451C, 0x4E4942C379E6AD18,
    0x19FF64C9A2F85116, 0x70E78BA5A6395958, 0x268E3A98874EFD92, 0xE3E64227C1D68D1E,
    0x8670E7AEA83CF28A, 0xFCC1F8DF45E5FC64, 0xD372B5922B5ACD82, 0xD0BBC97774D9E34C,
    0x2F97D5D6900C421C, 0x6C7CEEC370E55A92, 0xE30E3AD704F7420E, 0x84DB2EAB2F3E4ACE,
    0x46822F959794FE4E, 0xA843539F3D679DAC, 0x38CDDB9A65F450C2, 0xFADEB08820E646FE,
    0x095AD18D158CF99C, 0xEF767C23F23B74D2, 0x56AB6A6B9D1F283A, 0x22A27BFECB2EF448,
    0x67CFC301A87E474E, 0x5D711D641C88DC34, 0x1FADBDBF1831B682, 0x7F4B7BC868ABD8FA,
    0xBF3CD17CA16CC406, 0x2D3B8162F6F84212, 0xBB8151062DB26EBE, 0x4AE38696126F4C8E]

/-! ## Polynomials in the advance step (width 64)

A polynomial over the field with two elements is a natural number, bit `i` being the
coefficient of `t ^ i`; `polyApply n p x` is the value at `x` of the polynomial `p`,
of degree below `n`, in the advance step. -/

/-- Applies `f` to `n`, asking for the value of `n` first. -/
def strict (n : Nat) (f : Nat → Nat) : Nat :=
  match n with
  | 0 => f 0
  | k + 1 => f (k + 1)

/-- The xor of the iterates `advance64^[i] x` over the bits `i < n` set in `p`. -/
def polyApply : Nat → Nat → Nat → Nat
  | 0, _, _ => 0
  | n + 1, p, x =>
    strict (advance64 x) (fun y => (if p.testBit 0 then x else 0) ^^^ polyApply n (p >>> 1) y)

/-- Product of the polynomials `p`, of degree below `n`, and `q`, without carries. -/
def clmul : Nat → Nat → Nat → Nat
  | 0, _, _ => 0
  | n + 1, p, q =>
    strict (p >>> 1) (fun p1 => strict (q <<< 1) (fun q1 =>
      (if p.testBit 0 then q else 0) ^^^ clmul n p1 q1))

/-- The minimal polynomial of the advance step of width 64, of degree 64. -/
def minPoly64 : Nat := 0x1B05002EF9452F6F6

/-- Removes the terms of degree `64 + k - 1` down to 64 of `p` by multiples of `minPoly64`. -/
def pmodAux : Nat → Nat → Nat
  | 0, p => p
  | k + 1, p => strict (if p.testBit (64 + k) then p ^^^ (minPoly64 <<< k) else p) (pmodAux k)

/-- Product of two polynomials of degree below 64, reduced modulo `minPoly64`. -/
def mulMod (p q : Nat) : Nat := pmodAux 64 (clmul 64 p q)

/-- Square-and-multiply loop: `r` is the current square, `acc` the product so far. -/
def powModAux : Nat → Nat → Nat → Nat → Nat
  | 0, _, _, acc => acc
  | k + 1, e, r, acc =>
    strict (mulMod r r) (fun r2 =>
      strict (if e.testBit 0 then mulMod acc r else acc) (fun acc2 =>
        powModAux k (e >>> 1) r2 acc2))

/-- The polynomial `t ^ e` reduced modulo `minPoly64`, for `e < 2 ^ 64`. -/
def powMod (e : Nat) : Nat := powModAux 64 e 2 1

/-- The polynomial `t * (t + 1) * (t ^ 5 + t ^ 3 + t ^ 2 + t + 1)`. -/
def shortPoly : Nat := 0xE2

/-- Component of a state on which the advance step has the long period `2 ^ 57 - 1`:
the value of `shortPoly` in the advance step at `x`, that is the xor of the iterates
7, 6, 5 and 1 of the advance step at `x`. -/
def longPart64 (x : Nat) : Nat := polyApply 8 shortPoly x

/-- The period of the advance step on the long component. -/
def longPeriod : Nat := 2 ^ 57 - 1

/-- A polynomial `g` with `g * (t ^ 226639 + 1) * shortPoly = shortPoly` modulo `minPoly64`. -/
def returnInverse226639 : Nat := 0x1F7E8890CBAD345

/-- A polynomial `g` with `g * (t ^ 524287 + 1) * shortPoly = shortPoly` modulo `minPoly64`. -/
def returnInverse524287 : Nat := 0x15A199B83458E07

/-- The polynomial `(t ^ 32 + t) / shortPoly`. -/
def shortCofactor : Nat := 0x367A571

/-! ## Basic facts about the arithmetic helpers -/

theorem seven_lt_promotedBits (n : Nat) : 7 < promotedBits n := by
  unfold promotedBits; split <;> omega

theorem nine_lt_promotedBits (n : Nat) : 9 < promotedBits n := by
  unfold promotedBits; split <;> omega

theorem thirteen_lt_promotedBits (n : Nat) : 13 < promotedBits n := by
  unfold promotedBits; split <;> omega

theorem one_lt_promotedBits (n : Nat) : 1 < promotedBits n := by
  unfold promotedBits; split <;> omega

theorem rotation_count_lt_promotedBits (n : Nat) : n * 8 - 1 < promotedBits n := by
  unfold promotedBits bits; split <;> omega

theorem toT_lt (n x : Nat) : toT n x < 2 ^ bits n :=
  Nat.mod_lt _ (Nat.pow_pos (by decide))

theorem mixRound_lt (n v : Nat) : mixRound n v < 2 ^ bits n := toT_lt _ _

/-! ## The loops in closed form -/

theorem random_body_eq (n v : Nat) (self : LFSR) :
    LFSR.random_body n (v, self)
      = .ok (mixRound n v, { self with curr := rotateRight n self.curr }) := by
  simp only [LFSR.random_body, shr, shl, seven_lt_promotedBits, nine_lt_promotedBits,
    thirteen_lt_promotedBits, one_lt_promotedBits, rotation_count_lt_promotedBits,
    if_true, bind, Except.bind, pure, Except.pure, mixRound, rotateRight]

theorem rand_body_eq_random_body (n : Nat) (p : Nat × LFSR) :
    LFSR.rand_body n p = LFSR.random_body n p := rfl

theorem rand_loop_eq_random_loop (n k : Nat) (p : Nat × LFSR) :
    LFSR.rand_loop n k p = LFSR.random_loop n k p := by
  induction k generalizing p with
  | zero => rfl
  | succ k ih =>
    simp only [LFSR.rand_loop, LFSR.random_loop, rand_body_eq_random_body]
    cases LFSR.random_body n p with
    | error e => rfl
    | ok q => exact ih q

theorem random_loop_eq (n k v : Nat) (self : LFSR) :
    LFSR.random_loop n k (v, self)
      = .ok ((mixRound n)^[k] v, { self with curr := (rotateRight n)^[k] self.curr }) := by
  induction k generalizing v self with
  | zero => rfl
  | succ k ih =>
    simp only [LFSR.random_loop, random_body_eq, bind, Except.bind, ih,
      Function.iterate_succ, Function.comp_apply]

theorem random_eq (n : Nat) (self : LFSR) :
    LFSR.random n self
      = .ok ((mixRound n)^[4] self.curr,
          { seed := self.seed, curr := (mixRound n)^[4] self.curr }) := by
  simp only [LFSR.random, random_loop_eq, bind, Except.bind, pure, Except.pure]

theorem numericLimitsMax_pos (n : Nat) (hn : 1 ≤ n) : 0 < numericLimitsMax n := by
  have h : 2 ^ 1 ≤ 2 ^ bits n := Nat.pow_le_pow_right (by decide) (by unfold bits; omega)
  unfold numericLimitsMax
  omega

theorem numericLimitsMax_succ (n : Nat) : numericLimitsMax n + 1 = 2 ^ bits n := by
  have h : 0 < 2 ^ bits n := Nat.pow_pos (by decide)
  unfold numericLimitsMax
  omega

theorem rand_eq (n : Nat) (hn : 1 ≤ n) (self : LFSR) :
    LFSR.rand n self
      = .ok ((((mixRound n)^[4] self.curr : Nat) : ℚ) / (numericLimitsMax n : ℚ),
          { seed := self.seed, curr := (mixRound n)^[4] self.curr }) := by
  have h : ((numericLimitsMax n : Nat) : ℚ) ≠ 0 := by
    exact_mod_cast (numericLimitsMax_pos n hn).ne'
  simp only [LFSR.rand, rand_loop_eq_random_loop, random_loop_eq, fdiv, h, if_false,
    bind, Except.bind, pure, Except.pure]

theorem subP_of_le (n min max : Nat) (hle : min ≤ max) (hmax : max < 2 ^ bits n) :
    subP n max min = ((max - min : Nat) : Int) := by
  unfold subP
  split
  · omega
  · rw [Int.emod_eq_of_lt (by omega) (by
      have : ((max : Int) < (2 : Int) ^ bits n) := by exact_mod_cast hmax
      omega)]
    omega

theorem truncate_of_nonneg (q : ℚ) (h : 0 ≤ q) : truncate q = ⌊q⌋ := by
  simp [truncate, h]

/-- The scaled value `min + (max - min) * u` lies between `min` and `max` when
`0 ≤ u ≤ 1`, and so does its truncation. -/
theorem truncate_scaled_bounds (min max : Nat) (u : ℚ) (hle : min ≤ max)
    (h0 : 0 ≤ u) (h1 : u ≤ 1) :
    (min : Int) ≤ truncate ((min : ℚ) + ((max - min : Nat) : ℚ) * u) ∧
      truncate ((min : ℚ) + ((max - min : Nat) : ℚ) * u) ≤ (max : Int) := by
  have hd : (0 : ℚ) ≤ ((max - min : Nat) : ℚ) := Nat.cast_nonneg _
  have hlo : (min : ℚ) ≤ (min : ℚ) + ((max - min : Nat) : ℚ) * u :=
    le_add_of_nonneg_right (mul_nonneg hd h0)
  have hhi : (min : ℚ) + ((max - min : Nat) : ℚ) * u ≤ (max : ℚ) := by
    have h2 : ((max - min : Nat) : ℚ) * u ≤ ((max - min : Nat) : ℚ) :=
      mul_le_of_le_one_right hd h1
    have h3 : ((max - min : Nat) : ℚ) = (max : ℚ) - (min : ℚ) := Nat.cast_sub hle
    linarith
  have hnn : (0 : ℚ) ≤ (min : ℚ) + ((max - min : Nat) : ℚ) * u :=
    le_trans (Nat.cast_nonneg _) hlo
  rw [truncate_of_nonneg _ hnn]
  constructor
  · exact Int.le_floor.mpr (by exact_mod_cast hlo)
  · have h4 : ((⌊(min : ℚ) + ((max - min : Nat) : ℚ) * u⌋ : Int) : ℚ) ≤ (max : ℚ) :=
      le_trans (Int.floor_le _) hhi
    exact_mod_cast h4

theorem mix_div_max_bounds (n : Nat) (hn : 1 ≤ n) (v : Nat) :
    (0 : ℚ) ≤ ((mixRound n)^[4] v : Nat) / (numericLimitsMax n : ℚ) ∧
      (((mixRound n)^[4] v : Nat) : ℚ) / (numericLimitsMax n : ℚ) ≤ 1 := by
  have hpos : (0 : ℚ) < (numericLimitsMax n : ℚ) := by
    exact_mod_cast numericLimitsMax_pos n hn
  have hlt : (mixRound n)^[4] v < 2 ^ bits n := by
    rw [show (4 : Nat) = 3 + 1 from rfl, Function.iterate_succ_apply']
    exact mixRound_lt _ _
  have hle : (mixRound n)^[4] v ≤ numericLimitsMax n := by
    have := numericLimitsMax_succ n
    omega
  constructor
  · exact div_nonneg (Nat.cast_nonneg _) hpos.le
  · rw [div_le_one hpos]
    exact_mod_cast hle

theorem random_min_max_eq (n : Nat) (hn : 1 ≤ n) (self : LFSR) (min max : Nat)
    (hle : min ≤ max) (hmax : max < 2 ^ bits n) :
    LFSR.random_min_max n self min max
      = .ok ((truncate ((min : ℚ) + ((max - min : Nat) : ℚ) *
              ((((mixRound n)^[4] self.curr : Nat) : ℚ) / (numericLimitsMax n : ℚ)))).toNat,
          { seed := self.seed, curr := (mixRound n)^[4] self.curr }) := by
  obtain ⟨h0, h1⟩ := mix_div_max_bounds n hn self.curr
  obtain ⟨hlo, hhi⟩ := truncate_scaled_bounds min max _ hle h0 h1
  have hr : 0 ≤ truncate ((min : ℚ) + ((max - min : Nat) : ℚ) *
        ((((mixRound n)^[4] self.curr : Nat) : ℚ) / (numericLimitsMax n : ℚ))) ∧
      truncate ((min : ℚ) + ((max - min : Nat) : ℚ) *
        ((((mixRound n)^[4] self.curr : Nat) : ℚ) / (numericLimitsMax n : ℚ)))
        < 2 ^ bits n := by
    constructor
    · omega
    · have : ((max : Int) < (2 : Int) ^ bits n) := by exact_mod_cast hmax
      omega
  simp only [LFSR.random_min_max, rand_eq n hn, subP_of_le n min max hle hmax,
    longDoubleToT, bind, Except.bind, pure, Except.pure, Int.cast_natCast, hr, and_self,
    if_true]

theorem xor_mod_two_pow_right (a b k : Nat) :
    (a ^^^ (b % 2 ^ k)) % 2 ^ k = (a ^^^ b) % 2 ^ k := by
  apply Nat.eq_of_testBit_eq
  intro i
  simp only [Nat.testBit_mod_two_pow, Nat.testBit_xor]
  by_cases h : i < k <;> simp [h]

theorem new_bit_toNat (x : Nat) : (decide (x &&& 1 ≠ 0)).toNat = x &&& 1 := by
  rw [Nat.and_one_is_mod]
  rcases Nat.mod_two_eq_zero_or_one x with h | h <;> simp [h]

theorem mixRound_eight (v : Nat) : mixRound 8 v = specRound64 v := by
  have hb : bits 8 = 64 := rfl
  have hp : promotedBits 8 = 64 := rfl
  simp only [mixRound, specRound64, toT, addP, hb, hp, new_bit_toNat,
    xor_mod_two_pow_right, Nat.mod_mod, Nat.mod_add_mod]

theorem mixRound_eight_iterate (k v : Nat) : (mixRound 8)^[k] v = specRound64^[k] v := by
  have h : mixRound 8 = specRound64 := funext mixRound_eight
  rw [h]

/-! ## Call sequences -/

theorem call_ok (n : Nat) (hn : 1 ≤ n) (self : LFSR) (c : Call) (hc : c.wellFormed n) :
    ∃ o, LFSR.call n self c
      = .ok (o, { seed := self.seed, curr := (mixRound n)^[4] self.curr }) := by
  cases c with
  | random =>
    simp only [LFSR.call, random_eq, bind, Except.bind, pure, Except.pure]
    exact ⟨_, rfl⟩
  | rand =>
    simp only [LFSR.call, rand_eq n hn, bind, Except.bind, pure, Except.pure]
    exact ⟨_, rfl⟩
  | random_min_max min max =>
    simp only [LFSR.call, random_min_max_eq n hn self min max hc.1 hc.2, bind,
      Except.bind, pure, Except.pure]
    exact ⟨_, rfl⟩

theorem drive_ok (n : Nat) (hn : 1 ≤ n) (calls : List Call) (self : LFSR)
    (hc : ∀ c ∈ calls, c.wellFormed n) :
    ∃ outs st, LFSR.drive n self calls = .ok (outs, st) ∧ outs.length = calls.length := by
  induction calls generalizing self with
  | nil => exact ⟨[], self, rfl, rfl⟩
  | cons c cs ih =>
    obtain ⟨o, ho⟩ := call_ok n hn self c (hc c (List.mem_cons_self _ _))
    obtain ⟨os, st, hos, hlen⟩ := ih { seed := self.seed, curr := (mixRound n)^[4] self.curr }
      (fun d hd => hc d (List.mem_cons_of_mem _ hd))
    refine ⟨o :: os, st, ?_, by simp [hlen]⟩
    simp only [LFSR.drive, ho, hos, bind, Except.bind, pure, Except.pure]

theorem drive_cons_drop (n k : Nat) (c : Call) (cs : List Call) (self : LFSR) :
    Except.map (fun r => (r.1.drop (k + 1), r.2)) (LFSR.drive n self (c :: cs))
      = (match LFSR.call n self c with
          | .error e => .error e
          | .ok r => Except.map (fun q => (q.1.drop k, q.2)) (LFSR.drive n r.2 cs)) := by
  simp only [LFSR.drive, bind, Except.bind, pure, Except.pure]
  cases LFSR.call n self c with
  | error e => rfl
  | ok r =>
    dsimp only
    cases LFSR.drive n r.2 cs with
    | error e => rfl
    | ok q => rfl

/-- Replacing a `random()` call by a `rand()` call in a sequence changes neither
the outputs after it nor the final state. -/
theorem drive_replace (n : Nat) (hn : 1 ≤ n) (pre post : List Call) (self : LFSR) :
    Except.map (fun r => (r.1.drop (pre.length + 1), r.2))
        (LFSR.drive n self (pre ++ Call.random :: post))
      = Except.map (fun r => (r.1.drop (pre.length + 1), r.2))
        (LFSR.drive n self (pre ++ Call.rand :: post)) := by
  induction pre generalizing self with
  | nil =>
    simp only [List.nil_append, List.length_nil, drive_cons_drop, LFSR.call, random_eq,
      rand_eq n hn, bind, Except.bind, pure, Except.pure]
  | cons c cs ih =>
    simp only [List.cons_append, List.length_cons, drive_cons_drop]
    cases LFSR.call n self c with
    | error e => rfl
    | ok r => exact ih r.2

theorem ctor_of_ne_zero (n s : Nat) (now : Int) (hs : s ≠ 0) :
    LFSR.ctor n s now = { seed := s, curr := s } := by
  have h : ¬ s ≤ 0 := by omega
  simp only [LFSR.ctor, h, if_false]

theorem random_min_max_ok_bounds (n : Nat) (hn : 1 ≤ n) (self : LFSR) (min max : Nat)
    (hle : min ≤ max) (hmax : max < 2 ^ bits n) :
    ∃ v st, LFSR.random_min_max n self min max = .ok (v, st) ∧ min ≤ v ∧ v ≤ max := by
  refine ⟨_, _, random_min_max_eq n hn self min max hle hmax, ?_⟩
  obtain ⟨h0, h1⟩ := mix_div_max_bounds n hn self.curr
  obtain ⟨hlo, hhi⟩ := truncate_scaled_bounds min max _ hle h0 h1
  omega

/-! ## The advance step of width 64 as a linear map over xor -/

theorem shiftRight_xor (a b k : Nat) : (a ^^^ b) >>> k = (a >>> k) ^^^ (b >>> k) := by
  apply Nat.eq_of_testBit_eq
  intro i
  simp only [Nat.testBit_shiftRight, Nat.testBit_xor]

theorem shiftLeft_xor (a b k : Nat) : (a ^^^ b) <<< k = (a <<< k) ^^^ (b <<< k) := by
  apply Nat.eq_of_testBit_eq
  intro i
  simp only [Nat.testBit_shiftLeft, Nat.testBit_xor]
  by_cases h : i ≥ k <;> simp [h]

theorem xor_mod_two_pow (a b k : Nat) : (a ^^^ b) % 2 ^ k = (a % 2 ^ k) ^^^ (b % 2 ^ k) := by
  apply Nat.eq_of_testBit_eq
  intro i
  simp only [Nat.testBit_mod_two_pow, Nat.testBit_xor]
  by_cases h : i < k <;> simp [h]

theorem and_one_xor (a b : Nat) : (a ^^^ b) &&& 1 = (a &&& 1) ^^^ (b &&& 1) := by
  apply Nat.eq_of_testBit_eq
  intro i
  simp only [Nat.testBit_and, Nat.testBit_xor]
  cases a.testBit i <;> cases b.testBit i <;> cases Nat.testBit 1 i <;> rfl

/-- The sum that reinserts the feedback bit never carries: it is an exclusive or. -/
theorem shiftLeft_one_add_and_one (m : Nat) :
    (m <<< 1) + (m &&& 1) = (m <<< 1) ^^^ (m &&& 1) := by
  have h1 : m &&& 1 < 2 ^ 1 := by
    rw [Nat.and_one_is_mod]; omega
  rw [Nat.shiftLeft_eq, Nat.mul_comm, Nat.mul_add_lt_is_or h1]
  apply Nat.eq_of_testBit_eq
  intro i
  rw [Nat.testBit_or, Nat.testBit_xor, Nat.mul_comm, ← Nat.shiftLeft_eq, Nat.testBit_shiftLeft,
    Nat.and_one_is_mod, show m % 2 = m % 2 ^ 1 from rfl, Nat.testBit_mod_two_pow]
  cases i with
  | zero => simp
  | succ j => simp

theorem xor_xor_xor_swap (a b c d : Nat) :
    (a ^^^ b) ^^^ (c ^^^ d) = (a ^^^ c) ^^^ (b ^^^ d) := by
  rw [Nat.xor_assoc, Nat.xor_assoc, ← Nat.xor_assoc b c d, Nat.xor_comm b c, Nat.xor_assoc]

theorem xorshift_right_xor (k a b : Nat) :
    ((a ^^^ b) ^^^ ((a ^^^ b) >>> k)) % 2 ^ 64
      = ((a ^^^ (a >>> k)) % 2 ^ 64) ^^^ ((b ^^^ (b >>> k)) % 2 ^ 64) := by
  rw [shiftRight_xor, xor_xor_xor_swap, xor_mod_two_pow]

theorem xorshift_left_xor (k a b : Nat) :
    ((a ^^^ b) ^^^ ((a ^^^ b) <<< k)) % 2 ^ 64
      = ((a ^^^ (a <<< k)) % 2 ^ 64) ^^^ ((b ^^^ (b <<< k)) % 2 ^ 64) := by
  rw [shiftLeft_xor, xor_xor_xor_swap, xor_mod_two_pow]

theorem feedback_xor (a b : Nat) :
    (((a ^^^ b) <<< 1) + ((a ^^^ b) &&& 1)) % 2 ^ 64
      = (((a <<< 1) + (a &&& 1)) % 2 ^ 64) ^^^ (((b <<< 1) + (b &&& 1)) % 2 ^ 64) := by
  rw [shiftLeft_one_add_and_one, shiftLeft_one_add_and_one, shiftLeft_one_add_and_one,
    shiftLeft_xor, and_one_xor, xor_xor_xor_swap, xor_mod_two_pow]

theorem specRound64_xor (a b : Nat) :
    specRound64 (a ^^^ b) = specRound64 a ^^^ specRound64 b := by
  simp only [specRound64, xorshift_right_xor, xorshift_left_xor, feedback_xor]

theorem advance64_xor : XorLinear advance64 := by
  intro a b
  simp only [advance64, specRound64_xor]

theorem specRound64_lt (x : Nat) : specRound64 x < 2 ^ 64 :=
  Nat.mod_lt _ (Nat.pow_pos (by decide))

theorem advance64_lt (x : Nat) : advance64 x < 2 ^ 64 := specRound64_lt _

/-- The two lowest bits of a round's result are equal. -/
theorem specRound64_mod_four (x : Nat) : specRound64 x % 4 = 0 ∨ specRound64 x % 4 = 3 := by
  unfold specRound64
  simp only []
  generalize ((((x ^^^ x >>> 7) % 2 ^ 64) ^^^ ((x ^^^ x >>> 7) % 2 ^ 64) <<< 9) % 2 ^ 64 ^^^
    ((((x ^^^ x >>> 7) % 2 ^ 64) ^^^ ((x ^^^ x >>> 7) % 2 ^ 64) <<< 9) % 2 ^ 64) >>> 13)
    % 2 ^ 64 = m
  rw [Nat.shiftLeft_eq, Nat.and_one_is_mod,
    Nat.mod_mod_of_dvd _ (show 4 ∣ 2 ^ 64 from ⟨2 ^ 62, by norm_num⟩)]
  rcases Nat.mod_two_eq_zero_or_one m with h | h <;> rw [h] <;> omega

theorem advance64_mod_four (x : Nat) : advance64 x % 4 = 0 ∨ advance64 x % 4 = 3 :=
  specRound64_mod_four _

theorem XorLinear.map_zero {g : Nat → Nat} (hg : XorLinear g) : g 0 = 0 := by
  have h := hg 0 0
  rw [Nat.xor_self] at h
  have h2 : g 0 ^^^ g 0 = 0 := Nat.xor_self _
  rw [← h] at h2
  exact h2

theorem two_pow_add_eq_xor (n y : Nat) (hy : y < 2 ^ n) : 2 ^ n + y = 2 ^ n ^^^ y := by
  have h := Nat.mul_add_lt_is_or hy 1
  rw [Nat.mul_one] at h
  rw [h]
  apply Nat.eq_of_testBit_eq
  intro i
  rw [Nat.testBit_or, Nat.testBit_xor, Nat.testBit_two_pow]
  by_cases hi : n = i
  · subst hi
    simp [Nat.testBit_lt_two_pow hy]
  · simp [hi]

/-- Two xor-linear maps that agree on the powers of two below `2 ^ n` agree on
every number below `2 ^ n`. -/
theorem XorLinear.ext_below {g h : Nat → Nat} (hg : XorLinear g) (hh : XorLinear h) (n : Nat)
    (hb : ∀ i, i < n → g (2 ^ i) = h (2 ^ i)) : ∀ x, x < 2 ^ n → g x = h x := by
  induction n with
  | zero =>
    intro x hx
    have : x = 0 := by omega
    rw [this, hg.map_zero, hh.map_zero]
  | succ n ih =>
    intro x hx
    by_cases hlt : x < 2 ^ n
    · exact ih (fun i hi => hb i (Nat.lt_succ_of_lt hi)) x hlt
    · have hy : x - 2 ^ n < 2 ^ n := by
        rw [Nat.pow_succ] at hx
        omega
      have hx2 : x = 2 ^ n ^^^ (x - 2 ^ n) := by
        rw [← two_pow_add_eq_xor n _ hy]
        omega
      rw [hx2, hg, hh, hb n (Nat.lt_succ_self n),
        ih (fun i hi => hb i (Nat.lt_succ_of_lt hi)) _ hy]

theorem select_xor (a b : Bool) (c : Nat) :
    (if (a ^^ b) then c else 0) = (if a then c else 0) ^^^ (if b then c else 0) := by
  cases a <;> cases b <;> simp

theorem applyTable_xor (tbl : List Nat) : XorLinear (applyTable tbl) := by
  induction tbl with
  | nil => intro a b; simp only [applyTable, Nat.xor_self]
  | cons c cs ih =>
    intro a b
    simp only [applyTable, Nat.testBit_xor, select_xor, shiftRight_xor, ih _ _]
    exact xor_xor_xor_swap _ _ _ _

theorem projection_xor (k : Nat) :
    XorLinear (fun x => x ^^^ (if x.testBit 0 then k else 0)) := by
  intro a b
  simp only [Nat.testBit_xor, select_xor]
  exact xor_xor_xor_swap _ _ _ _

set_option maxRecDepth 100000 in
theorem kernelTable_basis : ∀ i, i < 64 →
    applyTable kernelTable (advance64 (2 ^ i))
      = 2 ^ i ^^^ (if (2 ^ i).testBit 0 then seedK else 0) := by
  decide

set_option maxRecDepth 100000 in
theorem fixedPointTable_basis : ∀ i, i < 64 →
    applyTable fixedPointTable (advance64 (2 ^ i) ^^^ 2 ^ i)
      = 2 ^ i ^^^ (if (2 ^ i).testBit 0 then seedP else 0) := by
  decide

/-- The advance step sends exactly two states of width 64 to zero. -/
theorem advance64_eq_zero (x : Nat) (hx : x < 2 ^ 64) (h : advance64 x = 0) :
    x = 0 ∨ x = seedK := by
  have hg : XorLinear (fun x => applyTable kernelTable (advance64 x)) := by
    intro a b
    simp only [advance64_xor a b, applyTable_xor kernelTable _ _]
  have e := XorLinear.ext_below hg (projection_xor seedK) 64 kernelTable_basis x hx
  simp only [h, (applyTable_xor kernelTable).map_zero] at e
  have e2 : x = if x.testBit 0 then seedK else 0 := Nat.xor_eq_zero.mp e.symm
  by_cases hb : x.testBit 0
  · right; rw [if_pos hb] at e2; exact e2
  · left; rw [if_neg hb] at e2; exact e2

/-- The advance step leaves exactly two states of width 64 unchanged. -/
theorem advance64_eq_self (x : Nat) (hx : x < 2 ^ 64) (h : advance64 x = x) :
    x = 0 ∨ x = seedP := by
  have hg : XorLinear (fun x => applyTable fixedPointTable (advance64 x ^^^ x)) := by
    intro a b
    simp only [advance64_xor a b, xor_xor_xor_swap (advance64 a) (advance64 b) a b,
      applyTable_xor fixedPointTable _ _]
  have e := XorLinear.ext_below hg (projection_xor seedP) 64 fixedPointTable_basis x hx
  simp only [h, Nat.xor_self, (applyTable_xor fixedPointTable).map_zero] at e
  have e2 : x = if x.testBit 0 then seedP else 0 := Nat.xor_eq_zero.mp e.symm
  by_cases hb : x.testBit 0
  · right; rw [if_pos hb] at e2; exact e2
  · left; rw [if_neg hb] at e2; exact e2

theorem advance64_seedP : advance64 seedP = seedP := by decide

theorem advance64_seedK : advance64 seedK = 0 := by decide

theorem Regular.advance {x : Nat} (hx : Regular x) : Regular (advance64 x) := by
  obtain ⟨hlt, h0, hK, hP, hKP⟩ := hx
  have hm := advance64_mod_four x
  refine ⟨advance64_lt x, ?_, ?_, ?_, ?_⟩
  · intro h
    rcases advance64_eq_zero x hlt h with h | h
    · exact h0 h
    · exact hK h
  · intro h
    rw [h] at hm
    revert hm
    decide
  · intro h
    have hz : advance64 (x ^^^ seedP) = 0 := by
      rw [advance64_xor, h, advance64_seedP, Nat.xor_self]
    have hlt2 : x ^^^ seedP < 2 ^ 64 := Nat.xor_lt_two_pow hlt (by decide)
    rcases advance64_eq_zero _ hlt2 hz with h2 | h2
    · exact hP (Nat.xor_eq_zero.mp h2)
    · apply hKP
      rw [← h2, Nat.xor_assoc, Nat.xor_self, Nat.xor_zero]
  · intro h
    rw [h] at hm
    revert hm
    decide

theorem Regular.advance_ne {x : Nat} (hx : Regular x) : advance64 x ≠ x := by
  intro h
  rcases advance64_eq_self x hx.1 h with h2 | h2
  · exact hx.2.1 h2
  · exact hx.2.2.2.1 h2

theorem Regular.iterate {x : Nat} (hx : Regular x) (i : Nat) : Regular (advance64^[i] x) := by
  induction i with
  | zero => exact hx
  | succ i ih =>
    rw [Function.iterate_succ_apply']
    exact ih.advance

/-! ## The harness loop in closed form -/

theorem random_eight (self : LFSR) :
    LFSR.random 8 self
      = .ok (advance64 self.curr, { seed := self.seed, curr := advance64 self.curr }) := by
  rw [random_eq, mixRound_eight_iterate]
  rfl

theorem harness_outputs_eq (count : Nat) (rng : LFSR) :
    harness_outputs 8 count rng = .ok (orbit64 count rng.curr) := by
  induction count generalizing rng with
  | zero => rfl
  | succ k ih =>
    simp only [harness_outputs, random_eight, ih, orbit64, bind, Except.bind, pure, Except.pure]

theorem orbit64_length (count x : Nat) : (orbit64 count x).length = count := by
  induction count generalizing x with
  | zero => rfl
  | succ k ih => simp only [orbit64, List.length_cons, ih]

theorem orbit64_getElem (count x i : Nat) (hi : i < count) :
    (orbit64 count x)[i]? = some (advance64^[i + 1] x) := by
  induction count generalizing x i with
  | zero => omega
  | succ k ih =>
    cases i with
    | zero => simp only [orbit64, List.getElem?_cons_zero, Function.iterate_succ,
        Function.iterate_zero, Function.comp_apply, id_eq]
    | succ j =>
      simp only [orbit64, List.getElem?_cons_succ]
      rw [ih (advance64 x) j (by omega)]
      rfl

theorem orbit64_fixed (count x : Nat) (h : advance64 x = x) :
    orbit64 count x = List.replicate count x := by
  induction count with
  | zero => rfl
  | succ k ih => simp only [orbit64, h, ih, List.replicate_succ]

/-! ## The zero state -/

theorem mixRound_zero (n : Nat) : mixRound n 0 = 0 := by
  simp [mixRound, toT, addP]

theorem mixRound_iterate_zero (n k : Nat) : (mixRound n)^[k] 0 = 0 := by
  induction k with
  | zero => rfl
  | succ k ih => rw [Function.iterate_succ_apply', ih, mixRound_zero]

theorem random_zero (n seed : Nat) :
    LFSR.random n { seed := seed, curr := 0 } = .ok (0, { seed := seed, curr := 0 }) := by
  rw [random_eq, mixRound_iterate_zero]

theorem rand_zero (n seed : Nat) (hn : 1 ≤ n) :
    LFSR.rand n { seed := seed, curr := 0 } = .ok (0, { seed := seed, curr := 0 }) := by
  rw [rand_eq n hn, mixRound_iterate_zero, Nat.cast_zero, zero_div]

theorem truncate_natCast (m : Nat) : truncate (m : ℚ) = (m : Int) := by
  rw [truncate_of_nonneg _ (Nat.cast_nonneg m)]
  exact Int.floor_natCast m

theorem random_min_max_zero (n seed min max : Nat) (hn : 1 ≤ n) (hmin : min < 2 ^ bits n) :
    LFSR.random_min_max n { seed := seed, curr := 0 } min max
      = .ok (min, { seed := seed, curr := 0 }) := by
  have hr : (0 : Int) ≤ (min : Int) ∧ (min : Int) < 2 ^ bits n := by
    constructor
    · exact Int.natCast_nonneg min
    · exact_mod_cast hmin
  simp only [LFSR.random_min_max, rand_zero n seed hn, longDoubleToT, mul_zero, add_zero,
    truncate_natCast, hr, and_self, if_true, Int.toNat_natCast, bind, Except.bind, pure,
    Except.pure]

theorem harness_outputs_zero (n seed count : Nat) :
    harness_outputs n count { seed := seed, curr := 0 } = .ok (List.replicate count 0) := by
  induction count with
  | zero => rfl
  | succ k ih =>
    simp only [harness_outputs, random_zero, ih, List.replicate_succ, bind, Except.bind, pure,
      Except.pure]

theorem drive_zero (n seed : Nat) (hn : 1 ≤ n) (calls : List Call)
    (hc : ∀ c ∈ calls, c.argumentsInRange n) :
    LFSR.drive n { seed := seed, curr := 0 } calls
      = .ok (calls.map Call.zeroOutput, { seed := seed, curr := 0 }) := by
  induction calls with
  | nil => rfl
  | cons c cs ih =>
    have hcs := ih (fun d hd => hc d (List.mem_cons_of_mem _ hd))
    have hhead := hc c (List.mem_cons_self _ _)
    cases c with
    | random =>
      simp only [LFSR.drive, LFSR.call, random_zero, hcs, List.map_cons, Call.zeroOutput, bind,
        Except.bind, pure, Except.pure]
    | rand =>
      simp only [LFSR.drive, LFSR.call, rand_zero n seed hn, hcs, List.map_cons,
        Call.zeroOutput, bind, Except.bind, pure, Except.pure]
    | random_min_max min max =>
      simp only [LFSR.drive, LFSR.call, random_min_max_zero n seed min max hn hhead.1, hcs,
        List.map_cons, Call.zeroOutput, bind, Except.bind, pure, Except.pure]

theorem orbit64_seedK (count : Nat) : orbit64 count seedK = List.replicate count 0 := by
  cases count with
  | zero => rfl
  | succ k =>
    rw [orbit64, advance64_seedK, orbit64_fixed k 0 (by decide), List.replicate_succ]

/-! ## The two lowest bits of an output -/

theorem four_dvd_two_pow (k : Nat) (hk : 2 ≤ k) : 4 ∣ 2 ^ k :=
  Nat.pow_dvd_pow 2 hk

theorem two_le_promotedBits (n : Nat) : 2 ≤ promotedBits n := by
  unfold promotedBits; split <;> omega

/-- Whatever the width, the result of a loop iteration has its two lowest bits equal. -/
theorem mixRound_mod_four (n v : Nat) : mixRound n v % 4 = 0 ∨ mixRound n v % 4 = 3 := by
  rcases Nat.eq_zero_or_pos n with hn | hn
  · left
    subst hn
    have h : mixRound 0 v = 0 := by
      unfold mixRound toT bits
      simp only [Nat.zero_mul, Nat.pow_zero, Nat.mod_one]
    rw [h]
  · have hb : 4 ∣ 2 ^ bits n := four_dvd_two_pow _ (by unfold bits; omega)
    have hp : 4 ∣ 2 ^ promotedBits n := four_dvd_two_pow _ (two_le_promotedBits n)
    simp only [mixRound, new_bit_toNat]
    generalize toT n (toT n (toT n (v ^^^ v >>> 7) ^^^
      toT n (v ^^^ v >>> 7) <<< 9 % 2 ^ promotedBits n) ^^^
      toT n (toT n (v ^^^ v >>> 7) ^^^
        toT n (v ^^^ v >>> 7) <<< 9 % 2 ^ promotedBits n) >>> 13) = m
    have h1 : (m <<< 1 % 2 ^ promotedBits n) % 4 = (m * 2) % 4 := by
      rw [Nat.mod_mod_of_dvd _ hp, Nat.shiftLeft_eq, Nat.pow_one]
    simp only [toT, addP, Nat.mod_mod_of_dvd _ hb, Nat.mod_mod_of_dvd _ hp,
      Nat.and_one_is_mod]
    rcases Nat.mod_two_eq_zero_or_one m with h | h <;> rw [h] <;> omega

theorem mixRound_iterate_mod_four (n k v : Nat) :
    (mixRound n)^[k + 1] v % 4 = 0 ∨ (mixRound n)^[k + 1] v % 4 = 3 := by
  rw [Function.iterate_succ_apply']
  exact mixRound_mod_four n _

theorem testBit_zero_eq_testBit_one (v : Nat) (h : v % 4 = 0 ∨ v % 4 = 3) :
    v.testBit 0 = v.testBit 1 := by
  rw [Nat.testBit_to_div_mod, Nat.testBit_to_div_mod]
  rcases h with h | h
  · have h0 : v / 2 ^ 0 % 2 = 0 := by omega
    have h1 : v / 2 ^ 1 % 2 = 0 := by omega
    rw [h0, h1]
  · have h0 : v / 2 ^ 0 % 2 = 1 := by omega
    have h1 : v / 2 ^ 1 % 2 = 1 := by omega
    rw [h0, h1]

/-! ## States of width 64 that lead to zero -/

theorem advance64_live (x : Nat) (hlt : x < 2 ^ 64) (h0 : x ≠ 0) (hK : x ≠ seedK) :
    advance64 x ≠ 0 ∧ advance64 x ≠ seedK := by
  constructor
  · intro h
    rcases advance64_eq_zero x hlt h with h | h
    · exact h0 h
    · exact hK h
  · intro h
    have hm := advance64_mod_four x
    rw [h] at hm
    revert hm
    decide

theorem orbit64_live (count x : Nat) (hlt : x < 2 ^ 64) (h0 : x ≠ 0) (hK : x ≠ seedK) :
    ∀ v ∈ orbit64 count x, v ≠ 0 ∧ v ≠ seedK := by
  induction count generalizing x with
  | zero =>
    intro v hv
    simp only [orbit64, List.not_mem_nil] at hv
  | succ k ih =>
    intro v hv
    obtain ⟨ha, hb⟩ := advance64_live x hlt h0 hK
    simp only [orbit64, List.mem_cons] at hv
    rcases hv with hv | hv
    · rw [hv]
      exact ⟨ha, hb⟩
    · exact ih (advance64 x) (advance64_lt x) ha hb v hv

/-! ## The upper bound of `random(min, max)` -/

theorem truncate_scaled_lt (min max : Nat) (u : ℚ) (hlt : min < max) (h0 : 0 ≤ u)
    (h1 : u < 1) :
    truncate ((min : ℚ) + ((max - min : Nat) : ℚ) * u) < (max : Int) := by
  have hd : (0 : ℚ) < ((max - min : Nat) : ℚ) := by
    exact_mod_cast Nat.sub_pos_of_lt hlt
  have hnn : (0 : ℚ) ≤ (min : ℚ) + ((max - min : Nat) : ℚ) * u :=
    add_nonneg (Nat.cast_nonneg _) (mul_nonneg hd.le h0)
  have hhi : (min : ℚ) + ((max - min : Nat) : ℚ) * u < (max : ℚ) := by
    have h2 : ((max - min : Nat) : ℚ) * u < ((max - min : Nat) : ℚ) :=
      mul_lt_of_lt_one_right hd h1
    have h3 : ((max - min : Nat) : ℚ) = (max : ℚ) - (min : ℚ) := Nat.cast_sub hlt.le
    linarith
  rw [truncate_of_nonneg _ hnn, Int.floor_lt]
  exact_mod_cast hhi

theorem mix_div_max_eq_one (n : Nat) (hn : 1 ≤ n) (v : Nat) :
    ((v : ℚ) / (numericLimitsMax n : ℚ) = 1) ↔ v = 2 ^ bits n - 1 := by
  have hpos : (0 : ℚ) < (numericLimitsMax n : ℚ) := by
    exact_mod_cast numericLimitsMax_pos n hn
  rw [div_eq_one_iff_eq hpos.ne']
  constructor
  · intro h
    have : v = numericLimitsMax n := by exact_mod_cast h
    exact this
  · intro h
    rw [h]
    rfl

theorem specRound64_eq_feedback (x : Nat) :
    specRound64 x = ((xorshift64 x <<< 1) + (xorshift64 x &&& 1)) % 2 ^ 64 := rfl

theorem advance64_eq_mixRound (x : Nat) : (mixRound 8)^[4] x = advance64 x := by
  rw [mixRound_eight_iterate]
  rfl

/-- From a state of width 64 other than 0 and `seedK`, no sequence of admissible
calls leads to the state 0 or to `seedK`. -/
theorem drive_eight_live (calls : List Call) (self : LFSR)
    (hc : ∀ c ∈ calls, c.wellFormed 8) (hlt : self.curr < 2 ^ 64) (h0 : self.curr ≠ 0)
    (hK : self.curr ≠ seedK) :
    ∃ outs st, LFSR.drive 8 self calls = .ok (outs, st) ∧ st.seed = self.seed ∧
      st.curr < 2 ^ 64 ∧ st.curr ≠ 0 ∧ st.curr ≠ seedK := by
  induction calls generalizing self with
  | nil => exact ⟨[], self, rfl, rfl, hlt, h0, hK⟩
  | cons c cs ih =>
    obtain ⟨o, ho⟩ := call_ok 8 (by decide) self c (hc c (List.mem_cons_self _ _))
    rw [advance64_eq_mixRound] at ho
    obtain ⟨ha, hb⟩ := advance64_live self.curr hlt h0 hK
    obtain ⟨os, st, hos, hseed, h1, h2, h3⟩ :=
      ih { seed := self.seed, curr := advance64 self.curr }
        (fun d hd => hc d (List.mem_cons_of_mem _ hd)) (advance64_lt _) ha hb
    refine ⟨o :: os, st, ?_, hseed, h1, h2, h3⟩
    simp only [LFSR.drive, ho, hos, bind, Except.bind, pure, Except.pure]

/-- The sum that reinserts the feedback bit, as the loop of width 64 computes it,
never carries and never wraps: it is a bitwise or. -/
theorem addP_feedback_eq_or (v : Nat) :
    addP 8 ((v <<< 1) % 2 ^ promotedBits 8) (decide (v &&& 1 ≠ 0)).toNat
      = ((v <<< 1) % 2 ^ 64) ||| (v &&& 1) := by
  have hp : promotedBits 8 = 64 := rfl
  have hd : (v <<< 1) % 2 ^ 64 = 2 ^ 1 * (v % 2 ^ 63) := by
    rw [Nat.shiftLeft_eq, Nat.mul_comm v (2 ^ 1), show (2 : Nat) ^ 64 = 2 ^ 1 * 2 ^ 63 from rfl,
      Nat.mul_mod_mul_left]
  have hb : v &&& 1 < 2 ^ 1 := by
    rw [Nat.and_one_is_mod]; omega
  have hlt : 2 ^ 1 * (v % 2 ^ 63) + (v &&& 1) < 2 ^ 64 := by
    have h63 : v % 2 ^ 63 < 2 ^ 63 := Nat.mod_lt _ (Nat.pow_pos (by decide))
    omega
  rw [new_bit_toNat, addP, hp, hd, Nat.mod_eq_of_lt hlt, Nat.mul_add_lt_is_or hb]

/-! ## Rounding to `long double` -/

theorem roundHalfEven_le (y : ℚ) (K : Int) (h : y ≤ K) : roundHalfEven y ≤ K := by
  have hf : ⌊y⌋ ≤ K := by
    have := Int.floor_le_floor h
    rwa [Int.floor_intCast] at this
  unfold roundHalfEven
  have key : ¬ (y - ⌊y⌋ < 1 / 2) → ⌊y⌋ + 1 ≤ K := by
    intro hfr
    have hlt : (⌊y⌋ : ℚ) < y := by linarith
    have : (⌊y⌋ : ℚ) < K := lt_of_lt_of_le hlt h
    have : ⌊y⌋ < K := by exact_mod_cast this
    omega
  split_ifs with h1 h2 h3
  · exact hf
  · exact key h1
  · exact hf
  · exact key h1

theorem le_roundHalfEven (y : ℚ) (K : Int) (h : (K : ℚ) ≤ y) : K ≤ roundHalfEven y := by
  have hf : K ≤ ⌊y⌋ := Int.le_floor.mpr h
  unfold roundHalfEven
  split_ifs <;> omega

theorem roundHalfEven_intCast (K : Int) : roundHalfEven (K : ℚ) = K :=
  le_antisymm (roundHalfEven_le _ K le_rfl) (le_roundHalfEven _ K le_rfl)

/-- The rounded value in terms of the binade of `x`. -/
theorem roundLongDouble_of_pos (x : ℚ) (hx : 0 < x) :
    roundLongDouble x
      = (roundHalfEven (x * 2 ^ (63 - Int.log 2 x)) : ℚ) / 2 ^ (63 - Int.log 2 x) := by
  unfold roundLongDouble
  rw [if_neg hx.ne', abs_of_pos hx]

theorem log_lt_of_lt_two_pow (x : ℚ) (hx : 0 < x) (h : x < 2 ^ 64) : Int.log 2 x < 64 := by
  have h2 : x < ((2 : Nat) : ℚ) ^ (64 : Int) := by
    rw [Nat.cast_ofNat, show (64 : Int) = ((64 : Nat) : Int) from rfl, zpow_natCast]
    exact h
  exact (Int.lt_zpow_iff_log_lt (b := 2) (by decide) hx).mp h2

theorem roundLongDouble_le_natCast (x : ℚ) (k : Nat) (hx : 0 ≤ x) (hxk : x ≤ k)
    (hk : k < 2 ^ 64) : roundLongDouble x ≤ k := by
  rcases hx.eq_or_lt with h0 | hpos
  · rw [← h0]
    simp [roundLongDouble]
  · have hlt : x < 2 ^ 64 := lt_of_le_of_lt hxk (by exact_mod_cast hk)
    have hlog := log_lt_of_lt_two_pow x hpos hlt
    obtain ⟨s, hs⟩ := Int.eq_ofNat_of_zero_le (show 0 ≤ 63 - Int.log 2 x by omega)
    rw [roundLongDouble_of_pos x hpos, hs, zpow_natCast]
    have hp : (0 : ℚ) < 2 ^ s := by positivity
    rw [div_le_iff₀ hp]
    have h1 : x * 2 ^ s ≤ ((k * 2 ^ s : Nat) : Int) := by
      push_cast
      exact mul_le_mul_of_nonneg_right hxk hp.le
    have h2 := roundHalfEven_le _ _ h1
    have h3 : ((roundHalfEven (x * 2 ^ s) : Int) : ℚ) ≤ (((k * 2 ^ s : Nat) : Int) : ℚ) := by
      exact_mod_cast h2
    push_cast at h3
    exact h3

theorem natCast_le_roundLongDouble (x : ℚ) (k : Nat) (hkx : (k : ℚ) ≤ x)
    (hx : x < 2 ^ 64) : (k : ℚ) ≤ roundLongDouble x := by
  rcases (le_trans (Nat.cast_nonneg k) hkx).eq_or_lt with h0 | hpos
  · have hk0 : (k : ℚ) ≤ 0 := by rw [h0]; exact hkx
    rw [← h0]
    simpa [roundLongDouble] using hk0
  · have hlog := log_lt_of_lt_two_pow x hpos hx
    obtain ⟨s, hs⟩ := Int.eq_ofNat_of_zero_le (show 0 ≤ 63 - Int.log 2 x by omega)
    rw [roundLongDouble_of_pos x hpos, hs, zpow_natCast]
    have hp : (0 : ℚ) < 2 ^ s := by positivity
    rw [le_div_iff₀ hp]
    have h1 : ((((k * 2 ^ s : Nat) : Int)) : ℚ) ≤ x * 2 ^ s := by
      push_cast
      exact mul_le_mul_of_nonneg_right hkx hp.le
    have h2 := le_roundHalfEven _ _ h1
    have h3 : (((k * 2 ^ s : Nat) : Int) : ℚ) ≤ ((roundHalfEven (x * 2 ^ s) : Int) : ℚ) := by
      exact_mod_cast h2
    push_cast at h3
    exact h3

theorem roundLongDouble_natCast (k : Nat) (hk : k < 2 ^ 64) : roundLongDouble (k : ℚ) = k :=
  le_antisymm (roundLongDouble_le_natCast _ k (Nat.cast_nonneg k) le_rfl hk)
    (natCast_le_roundLongDouble _ k le_rfl (by exact_mod_cast hk))

theorem roundHalfEven_eq (y : ℚ) (K : Int) (h1 : (K : ℚ) - 1 / 2 < y)
    (h2 : y < (K : ℚ) + 1 / 2) : roundHalfEven y = K := by
  have hfl := Int.floor_le y
  have hlf := Int.lt_floor_add_one y
  rcases le_or_lt (K : ℚ) y with hge | hlt
  · have hf : ⌊y⌋ = K := by
      rw [Int.floor_eq_iff]
      constructor
      · exact hge
      · linarith
    unfold roundHalfEven
    rw [hf, if_pos (by linarith)]
  · have hf : ⌊y⌋ = K - 1 := by
      rw [Int.floor_eq_iff]
      constructor
      · push_cast; linarith
      · push_cast; linarith
    unfold roundHalfEven
    rw [hf, if_neg (by push_cast; linarith), if_pos (by push_cast; linarith)]
    omega

theorem log_eq_of_binade (x : ℚ) (e : Int) (hlo : (2 : ℚ) ^ e ≤ x) (hhi : x < 2 ^ (e + 1)) :
    Int.log 2 x = e := by
  have hx : 0 < x := lt_of_lt_of_le (by positivity) hlo
  have h1 : e ≤ Int.log 2 x := by
    apply (Int.zpow_le_iff_le_log (b := 2) (by decide) hx).mp
    rw [Nat.cast_ofNat]
    exact hlo
  have h2 : Int.log 2 x < e + 1 := by
    apply (Int.lt_zpow_iff_log_lt (b := 2) (by decide) hx).mp
    rw [Nat.cast_ofNat]
    exact hhi
  omega

/-- Evaluation of the rounding from the binade of `x` and the nearest scaled integer. -/
theorem roundLongDouble_eq (x : ℚ) (e K : Int) (hlo : (2 : ℚ) ^ e ≤ x)
    (hhi : x < 2 ^ (e + 1)) (h1 : (K : ℚ) - 1 / 2 < x * 2 ^ (63 - e))
    (h2 : x * 2 ^ (63 - e) < (K : ℚ) + 1 / 2) :
    roundLongDouble x = (K : ℚ) / 2 ^ (63 - e) := by
  have hx : 0 < x := lt_of_lt_of_le (by positivity) hlo
  rw [roundLongDouble_of_pos x hx, log_eq_of_binade x e hlo hhi, roundHalfEven_eq _ K h1 h2]

theorem two_pow_bits_le (n : Nat) (hn8 : n ≤ 8) : 2 ^ bits n ≤ 2 ^ 64 :=
  Nat.pow_le_pow_right (by decide) (by unfold bits; omega)

theorem toLongDouble_natCast (k : Nat) (hk : k < 2 ^ 64) : toLongDouble (k : Int) = (k : ℚ) := by
  unfold toLongDouble
  rw [Int.cast_natCast]
  exact roundLongDouble_natCast k hk

theorem mix_iterate_lt (n v : Nat) : (mixRound n)^[4] v < 2 ^ bits n := by
  rw [show (4 : Nat) = 3 + 1 from rfl, Function.iterate_succ_apply']
  exact mixRound_lt _ _

theorem rand_long_double_eq (n : Nat) (hn : 1 ≤ n) (hn8 : n ≤ 8) (self : LFSR) :
    LFSR.rand_long_double n self
      = .ok (roundLongDouble ((((mixRound n)^[4] self.curr : Nat) : ℚ)
            / (numericLimitsMax n : ℚ)),
          { seed := self.seed, curr := (mixRound n)^[4] self.curr }) := by
  have h64 := two_pow_bits_le n hn8
  have hv : (mixRound n)^[4] self.curr < 2 ^ 64 := lt_of_lt_of_le (mix_iterate_lt n _) h64
  have hM : numericLimitsMax n < 2 ^ 64 := by
    have := numericLimitsMax_succ n
    omega
  have h : ((numericLimitsMax n : Nat) : ℚ) ≠ 0 := by
    exact_mod_cast (numericLimitsMax_pos n hn).ne'
  simp only [LFSR.rand_long_double, rand_loop_eq_random_loop, random_loop_eq, fdivLongDouble,
    toLongDouble_natCast _ hv, toLongDouble_natCast _ hM, h, if_false, bind, Except.bind,
    pure, Except.pure]

theorem rand_long_double_bounds (n : Nat) (hn : 1 ≤ n) (v : Nat) :
    (0 : ℚ) ≤ roundLongDouble ((((mixRound n)^[4] v : Nat) : ℚ) / (numericLimitsMax n : ℚ)) ∧
      roundLongDouble ((((mixRound n)^[4] v : Nat) : ℚ) / (numericLimitsMax n : ℚ)) ≤ 1 := by
  obtain ⟨h0, h1⟩ := mix_div_max_bounds n hn v
  constructor
  · have := natCast_le_roundLongDouble _ 0 (by simpa using h0)
      (lt_of_le_of_lt h1 (by norm_num))
    simpa using this
  · have := roundLongDouble_le_natCast _ 1 h0 (by simpa using h1) (by norm_num)
    simpa using this

/-- In `long double` arithmetic the scaled value stays between `min` and `max`. -/
theorem scaled_long_double_bounds (min max : Nat) (u : ℚ) (hle : min ≤ max)
    (hmax : max < 2 ^ 64) (h0 : 0 ≤ u) (h1 : u ≤ 1) :
    (min : ℚ) ≤ roundLongDouble ((min : ℚ) + roundLongDouble (((max - min : Nat) : ℚ) * u)) ∧
      roundLongDouble ((min : ℚ) + roundLongDouble (((max - min : Nat) : ℚ) * u))
        ≤ (max : ℚ) := by
  have hd : (0 : ℚ) ≤ ((max - min : Nat) : ℚ) := Nat.cast_nonneg _
  have hdlt : max - min < 2 ^ 64 := by omega
  have hmaxq : (max : ℚ) < 2 ^ 64 := by exact_mod_cast hmax
  have hprod0 : (0 : ℚ) ≤ ((max - min : Nat) : ℚ) * u := mul_nonneg hd h0
  have hprod1 : ((max - min : Nat) : ℚ) * u ≤ ((max - min : Nat) : ℚ) :=
    mul_le_of_le_one_right hd h1
  have hp1 := roundLongDouble_le_natCast _ (max - min) hprod0 hprod1 hdlt
  have hp0 : (0 : ℚ) ≤ roundLongDouble (((max - min : Nat) : ℚ) * u) := by
    have := natCast_le_roundLongDouble (((max - min : Nat) : ℚ) * u) 0 (by simpa using hprod0)
      (lt_of_le_of_lt hprod1 (by exact_mod_cast hdlt))
    simpa using this
  have hcast : ((max - min : Nat) : ℚ) = (max : ℚ) - (min : ℚ) := Nat.cast_sub hle
  have hs0 : (min : ℚ) ≤ (min : ℚ) + roundLongDouble (((max - min : Nat) : ℚ) * u) := by
    linarith
  have hs1 : (min : ℚ) + roundLongDouble (((max - min : Nat) : ℚ) * u) ≤ (max : ℚ) := by
    linarith
  exact ⟨natCast_le_roundLongDouble _ min hs0 (lt_of_le_of_lt hs1 hmaxq),
    roundLongDouble_le_natCast _ max (le_trans (Nat.cast_nonneg _) hs0) hs1 hmax⟩

theorem truncate_bounds_of_bounds (min max : Nat) (r : ℚ) (h0 : (min : ℚ) ≤ r)
    (h1 : r ≤ (max : ℚ)) : (min : Int) ≤ truncate r ∧ truncate r ≤ (max : Int) := by
  rw [truncate_of_nonneg r (le_trans (Nat.cast_nonneg _) h0)]
  constructor
  · exact Int.le_floor.mpr (by exact_mod_cast h0)
  · have h4 : ((⌊r⌋ : Int) : ℚ) ≤ (max : ℚ) := le_trans (Int.floor_le _) h1
    exact_mod_cast h4

theorem random_min_max_long_double_eq (n : Nat) (hn : 1 ≤ n) (hn8 : n ≤ 8) (self : LFSR)
    (min max : Nat) (hle : min ≤ max) (hmax : max < 2 ^ bits n) :
    LFSR.random_min_max_long_double n self min max
      = .ok ((truncate (roundLongDouble ((min : ℚ) + roundLongDouble
              (((max - min : Nat) : ℚ) * roundLongDouble
                ((((mixRound n)^[4] self.curr : Nat) : ℚ) / (numericLimitsMax n : ℚ)))))).toNat,
          { seed := self.seed, curr := (mixRound n)^[4] self.curr }) := by
  have h64 := two_pow_bits_le n hn8
  have hmax64 : max < 2 ^ 64 := lt_of_lt_of_le hmax h64
  obtain ⟨h0, h1⟩ := rand_long_double_bounds n hn self.curr
  obtain ⟨hs0, hs1⟩ := scaled_long_double_bounds min max _ hle hmax64 h0 h1
  obtain ⟨hlo, hhi⟩ := truncate_bounds_of_bounds min max _ hs0 hs1
  have hr : 0 ≤ truncate (roundLongDouble ((min : ℚ) + roundLongDouble
        (((max - min : Nat) : ℚ) * roundLongDouble
          ((((mixRound n)^[4] self.curr : Nat) : ℚ) / (numericLimitsMax n : ℚ))))) ∧
      truncate (roundLongDouble ((min : ℚ) + roundLongDouble
        (((max - min : Nat) : ℚ) * roundLongDouble
          ((((mixRound n)^[4] self.curr : Nat) : ℚ) / (numericLimitsMax n : ℚ)))))
        < 2 ^ bits n := by
    constructor
    · omega
    · have : ((max : Int) < (2 : Int) ^ bits n) := by exact_mod_cast hmax
      omega
  simp only [LFSR.random_min_max_long_double, rand_long_double_eq n hn hn8,
    subP_of_le n min max hle hmax, toLongDouble_natCast _ (show max - min < 2 ^ 64 by omega),
    toLongDouble_natCast _ (show min < 2 ^ 64 by omega),
    longDoubleToT, bind, Except.bind, pure, Except.pure, hr, and_self, if_true]

/-! ## Two runs of `random(min, max)` evaluated in `long double` arithmetic -/

theorem advance64_one : advance64 1 = 1109397278919 := by decide

theorem advance64_two_pow_63 : advance64 9223372036854775808 = 12650133774859797152 := by decide

theorem numericLimitsMax_eight : numericLimitsMax 8 = 18446744073709551615 := by decide

theorem round_unit_state_one :
    roundLongDouble ((1109397278919 : ℚ) / 18446744073709551615)
      = 9306298889118154753 / 2 ^ 87 := by
  have h := roundLongDouble_eq ((1109397278919 : ℚ) / 18446744073709551615) (-24)
    9306298889118154753 (by norm_num) (by norm_num) (by norm_num) (by norm_num)
  rw [h]
  norm_num

theorem round_product_state_one :
    roundLongDouble ((18446744073709551614 : ℚ) * (9306298889118154753 / 2 ^ 87))
      = 9306298889118154752 / 2 ^ 23 := by
  have h := roundLongDouble_eq ((18446744073709551614 : ℚ) * (9306298889118154753 / 2 ^ 87)) 40
    9306298889118154752 (by norm_num) (by norm_num) (by norm_num) (by norm_num)
  rw [h]
  norm_num

theorem round_sum_state_one :
    roundLongDouble ((1 : ℚ) + 9306298889118154752 / 2 ^ 23) = 1109397278920 := by
  have h := roundLongDouble_eq ((1 : ℚ) + 9306298889118154752 / 2 ^ 23) 40
    9306298889126543360 (by norm_num) (by norm_num) (by norm_num) (by norm_num)
  rw [h]
  norm_num

theorem round_unit_state_two_pow_63 :
    roundLongDouble ((12650133774859797152 : ℚ) / 18446744073709551615)
      = 12650133774859797153 / 2 ^ 64 := by
  have h := roundLongDouble_eq ((12650133774859797152 : ℚ) / 18446744073709551615) (-1)
    12650133774859797153 (by norm_num) (by norm_num) (by norm_num) (by norm_num)
  rw [h]
  norm_num

theorem round_product_state_two_pow_63 :
    roundLongDouble ((1 : ℚ) * (12650133774859797153 / 2 ^ 64))
      = 12650133774859797153 / 2 ^ 64 := by
  have h := roundLongDouble_eq ((1 : ℚ) * (12650133774859797153 / 2 ^ 64)) (-1)
    12650133774859797153 (by norm_num) (by norm_num) (by norm_num) (by norm_num)
  rw [h]
  norm_num

theorem round_sum_state_two_pow_63 :
    roundLongDouble ((9223372036854775808 : ℚ) + 12650133774859797153 / 2 ^ 64)
      = 9223372036854775809 := by
  have h := roundLongDouble_eq ((9223372036854775808 : ℚ) + 12650133774859797153 / 2 ^ 64) 63
    9223372036854775809 (by norm_num) (by norm_num) (by norm_num) (by norm_num)
  rw [h]
  norm_num

/-- State 1 and `random(1, 2 ^ 64 - 1)`: the code's arithmetic gives 1109397278920. -/
theorem random_min_max_long_double_state_one (seed : Nat) :
    LFSR.random_min_max_long_double 8 { seed := seed, curr := 1 } 1 18446744073709551615
      = .ok (1109397278920, { seed := seed, curr := 1109397278919 }) := by
  rw [random_min_max_long_double_eq 8 (by decide) (by decide) _ 1 18446744073709551615
    (by decide) (by unfold bits; norm_num)]
  simp only [advance64_eq_mixRound, advance64_one, numericLimitsMax_eight]
  have hd : ((18446744073709551615 - 1 : Nat) : ℚ) = 18446744073709551614 := by norm_num
  have hu : (((1109397278919 : Nat) : ℚ) / ((18446744073709551615 : Nat) : ℚ))
      = (1109397278919 : ℚ) / 18446744073709551615 := by norm_num
  have hone : ((1 : Nat) : ℚ) = 1 := by norm_num
  rw [hd, hu, hone, round_unit_state_one, round_product_state_one, round_sum_state_one]
  have ht : truncate (1109397278920 : ℚ) = 1109397278920 := by
    have := truncate_natCast 1109397278920
    simpa using this
  rw [ht]
  rfl

/-- The exact reading of the same call gives 1109397278919. -/
theorem random_min_max_exact_state_one (seed : Nat) :
    LFSR.random_min_max 8 { seed := seed, curr := 1 } 1 18446744073709551615
      = .ok (1109397278919, { seed := seed, curr := 1109397278919 }) := by
  rw [random_min_max_eq 8 (by decide) _ 1 18446744073709551615
    (by decide) (by unfold bits; norm_num)]
  simp only [advance64_eq_mixRound, advance64_one, numericLimitsMax_eight]
  have hx : ((1 : Nat) : ℚ) + ((18446744073709551615 - 1 : Nat) : ℚ)
      * (((1109397278919 : Nat) : ℚ) / ((18446744073709551615 : Nat) : ℚ))
      = 1109397278919 + 18446742964312272696 / 18446744073709551615 := by norm_num
  have ht : truncate ((1109397278919 : ℚ) + 18446742964312272696 / 18446744073709551615)
      = 1109397278919 := by
    rw [truncate_of_nonneg _ (by norm_num), Int.floor_eq_iff]
    constructor <;> norm_num
  rw [hx, ht]
  rfl

/-- State `2 ^ 63` and `random(2 ^ 63, 2 ^ 63 + 1)`: the code's arithmetic gives `max`. -/
theorem random_min_max_long_double_state_two_pow_63 (seed : Nat) :
    LFSR.random_min_max_long_double 8 { seed := seed, curr := 9223372036854775808 }
        9223372036854775808 9223372036854775809
      = .ok (9223372036854775809, { seed := seed, curr := 12650133774859797152 }) := by
  rw [random_min_max_long_double_eq 8 (by decide) (by decide) _ 9223372036854775808
    9223372036854775809 (by decide) (by unfold bits; norm_num)]
  simp only [advance64_eq_mixRound, advance64_two_pow_63, numericLimitsMax_eight]
  have hd : ((9223372036854775809 - 9223372036854775808 : Nat) : ℚ) = 1 := by norm_num
  have hu : (((12650133774859797152 : Nat) : ℚ) / ((18446744073709551615 : Nat) : ℚ))
      = (12650133774859797152 : ℚ) / 18446744073709551615 := by norm_num
  have hmin : ((9223372036854775808 : Nat) : ℚ) = 9223372036854775808 := by norm_num
  rw [hd, hu, hmin, round_unit_state_two_pow_63, round_product_state_two_pow_63,
    round_sum_state_two_pow_63]
  have ht : truncate (9223372036854775809 : ℚ) = 9223372036854775809 := by
    have := truncate_natCast 9223372036854775809
    simpa using this
  rw [ht]
  rfl

/-! ## The upper bound of `random(min, max)` in `long double` arithmetic -/

theorem round_unit_of_max (n : Nat) (hn : 1 ≤ n) :
    roundLongDouble (((2 ^ bits n - 1 : Nat) : ℚ) / (numericLimitsMax n : ℚ)) = 1 := by
  have hpos : (0 : ℚ) < (numericLimitsMax n : ℚ) := by
    exact_mod_cast numericLimitsMax_pos n hn
  have h : ((2 ^ bits n - 1 : Nat) : ℚ) = (numericLimitsMax n : ℚ) := rfl
  rw [h, div_self hpos.ne']
  have := roundLongDouble_natCast 1 (by norm_num)
  simpa using this

theorem scaled_long_double_of_one (min max : Nat) (hle : min ≤ max) (hmax : max < 2 ^ 64) :
    roundLongDouble ((min : ℚ) + roundLongDouble (((max - min : Nat) : ℚ) * 1)) = (max : ℚ) := by
  rw [mul_one, roundLongDouble_natCast (max - min) (by omega)]
  have h : (min : ℚ) + ((max - min : Nat) : ℚ) = ((max : Nat) : ℚ) := by
    rw [Nat.cast_sub hle]
    ring
  rw [h, roundLongDouble_natCast max hmax]

/-- When `(max - min) * (1 - u)` is at least 1, neither rounding can reach `max`. -/
theorem scaled_long_double_le_pred (min max : Nat) (u : ℚ) (hlt : min < max)
    (hmax : max < 2 ^ 64) (h0 : 0 ≤ u) (hu : 1 ≤ ((max : ℚ) - (min : ℚ)) * (1 - u)) :
    roundLongDouble ((min : ℚ) + roundLongDouble (((max - min : Nat) : ℚ) * u))
      ≤ ((max - 1 : Nat) : ℚ) := by
  have hcast : ((max - min : Nat) : ℚ) = (max : ℚ) - (min : ℚ) := Nat.cast_sub hlt.le
  have hd : (0 : ℚ) ≤ ((max - min : Nat) : ℚ) := Nat.cast_nonneg _
  have hpred : ((max - min - 1 : Nat) : ℚ) = (max : ℚ) - (min : ℚ) - 1 := by
    rw [Nat.cast_sub (by omega), hcast]
    norm_num
  have hmax1 : ((max - 1 : Nat) : ℚ) = (max : ℚ) - 1 := by
    rw [Nat.cast_sub (by omega)]
    norm_num
  have hprod : ((max - min : Nat) : ℚ) * u ≤ ((max - min - 1 : Nat) : ℚ) := by
    rw [hpred, hcast]
    linarith
  have hp := roundLongDouble_le_natCast _ (max - min - 1) (mul_nonneg hd h0) hprod (by omega)
  have hp0 : (0 : ℚ) ≤ roundLongDouble (((max - min : Nat) : ℚ) * u) := by
    have := natCast_le_roundLongDouble (((max - min : Nat) : ℚ) * u) 0
      (by simpa using mul_nonneg hd h0)
      (lt_of_le_of_lt hprod (by exact_mod_cast (show max - min - 1 < 2 ^ 64 by omega)))
    simpa using this
  apply roundLongDouble_le_natCast _ (max - 1) (add_nonneg (Nat.cast_nonneg _) hp0) _ (by omega)
  rw [hmax1]
  rw [hpred] at hp
  linarith

theorem toNat_truncate_lt (r : ℚ) (m : Nat) (hm : 1 ≤ m) (h0 : 0 ≤ r)
    (h : r ≤ ((m - 1 : Nat) : ℚ)) : (truncate r).toNat < m := by
  rw [truncate_of_nonneg r h0]
  have h1 : ((⌊r⌋ : Int) : ℚ) ≤ ((m - 1 : Nat) : ℚ) := le_trans (Int.floor_le r) h
  have h2 : ⌊r⌋ ≤ ((m - 1 : Nat) : Int) := by exact_mod_cast h1
  omega

/-! ## Polynomials in the advance step -/

theorem strict_eq (n : Nat) (f : Nat → Nat) : strict n f = f n := by
  cases n <;> rfl

theorem advance64_zero : advance64 0 = 0 := by decide

theorem advance64_iterate_lt (k x : Nat) (hx : x < 2 ^ 64) : advance64^[k] x < 2 ^ 64 := by
  cases k with
  | zero => exact hx
  | succ k =>
    rw [Function.iterate_succ_apply']
    exact advance64_lt _

theorem advance64_iterate_xor (k a b : Nat) :
    advance64^[k] (a ^^^ b) = advance64^[k] a ^^^ advance64^[k] b := by
  induction k generalizing a b with
  | zero => rfl
  | succ k ih => rw [Function.iterate_succ_apply, Function.iterate_succ_apply,
      Function.iterate_succ_apply, advance64_xor a b, ih]

theorem polyApply_succ (n p x : Nat) :
    polyApply (n + 1) p x
      = (if p.testBit 0 then x else 0) ^^^ polyApply n (p >>> 1) (advance64 x) := by
  rw [polyApply, strict_eq]

theorem polyApply_zero_poly (n x : Nat) : polyApply n 0 x = 0 := by
  induction n generalizing x with
  | zero => rfl
  | succ n ih => rw [polyApply_succ, Nat.zero_shiftRight, ih]; simp

theorem polyApply_zero_vec (n p : Nat) : polyApply n p 0 = 0 := by
  induction n generalizing p with
  | zero => rfl
  | succ n ih => rw [polyApply_succ, advance64_zero, ih]; simp

theorem polyApply_xor_poly (n p q x : Nat) :
    polyApply n (p ^^^ q) x = polyApply n p x ^^^ polyApply n q x := by
  induction n generalizing p q x with
  | zero => simp only [polyApply, Nat.xor_self]
  | succ n ih =>
    rw [polyApply_succ, polyApply_succ, polyApply_succ, Nat.testBit_xor, select_xor,
      shiftRight_xor, ih]
    exact xor_xor_xor_swap _ _ _ _

theorem select_xor_vec (b : Bool) (x y : Nat) :
    (if b then x ^^^ y else 0) = (if b then x else 0) ^^^ (if b then y else 0) := by
  cases b <;> simp

theorem polyApply_xor_vec (n p x y : Nat) :
    polyApply n p (x ^^^ y) = polyApply n p x ^^^ polyApply n p y := by
  induction n generalizing p x y with
  | zero => simp only [polyApply, Nat.xor_self]
  | succ n ih =>
    rw [polyApply_succ, polyApply_succ, polyApply_succ, advance64_xor x y, ih, select_xor_vec]
    exact xor_xor_xor_swap _ _ _ _

theorem polyApply_xorLinear (n p : Nat) : XorLinear (polyApply n p) :=
  fun x y => polyApply_xor_vec n p x y

theorem select_advance (b : Bool) (x : Nat) :
    (if b then advance64 x else 0) = advance64 (if b then x else 0) := by
  cases b
  · simp [advance64_zero]
  · simp

theorem polyApply_advance (n p x : Nat) :
    polyApply n p (advance64 x) = advance64 (polyApply n p x) := by
  induction n generalizing p x with
  | zero => exact advance64_zero.symm
  | succ n ih =>
    rw [polyApply_succ, polyApply_succ, ih, select_advance, ← advance64_xor]

theorem polyApply_iterate (n p k x : Nat) :
    polyApply n p (advance64^[k] x) = advance64^[k] (polyApply n p x) := by
  induction k generalizing x with
  | zero => rfl
  | succ k ih =>
    rw [Function.iterate_succ_apply, Function.iterate_succ_apply, ih, polyApply_advance]

theorem polyApply_lt (n p x : Nat) (hx : x < 2 ^ 64) : polyApply n p x < 2 ^ 64 := by
  induction n generalizing p x with
  | zero => exact Nat.pow_pos (by decide)
  | succ n ih =>
    rw [polyApply_succ]
    apply Nat.xor_lt_two_pow
    · split
      · exact hx
      · exact Nat.pow_pos (by decide)
    · exact ih _ _ (advance64_lt x)

theorem shiftRight_one_lt (p n : Nat) (h : p < 2 ^ (n + 1)) : p >>> 1 < 2 ^ n := by
  rw [Nat.shiftRight_eq_div_pow, Nat.pow_one]
  rw [Nat.pow_succ] at h
  omega

theorem polyApply_fuel (n k p x : Nat) (hp : p < 2 ^ n) :
    polyApply (n + k) p x = polyApply n p x := by
  induction n generalizing p x with
  | zero =>
    have h0 : p = 0 := by simpa using hp
    rw [h0, polyApply_zero_poly, polyApply_zero_poly]
  | succ n ih =>
    rw [show n + 1 + k = (n + k) + 1 by omega, polyApply_succ, polyApply_succ,
      ih _ _ (shiftRight_one_lt p n hp)]

theorem polyApply_fuel_le (n m p x : Nat) (hp : p < 2 ^ n) (hnm : n ≤ m) :
    polyApply m p x = polyApply n p x := by
  obtain ⟨k, rfl⟩ := Nat.exists_eq_add_of_le hnm
  exact polyApply_fuel n k p x hp

theorem polyApply_shiftLeft_one (n p x : Nat) :
    polyApply (n + 1) (p <<< 1) x = polyApply n p (advance64 x) := by
  have h0 : (p <<< 1).testBit 0 = false := by
    rw [Nat.testBit_shiftLeft]; simp
  have h1 : (p <<< 1) >>> 1 = p := by
    rw [Nat.shiftLeft_eq, Nat.shiftRight_eq_div_pow]
    omega
  rw [polyApply_succ, h0, h1]
  simp

theorem polyApply_shiftLeft (n k p x : Nat) :
    polyApply (n + k) (p <<< k) x = polyApply n p (advance64^[k] x) := by
  induction k generalizing n p x with
  | zero => rfl
  | succ k ih =>
    rw [show p <<< (k + 1) = (p <<< k) <<< 1 by rw [← Nat.shiftLeft_add],
      show n + (k + 1) = (n + k) + 1 by omega, polyApply_shiftLeft_one, ih,
      ← Function.iterate_succ_apply]

theorem polyApply_one (n x : Nat) : polyApply (n + 1) 1 x = x := by
  rw [polyApply_succ]
  have h : (1 : Nat) >>> 1 = 0 := rfl
  rw [h, polyApply_zero_poly]
  simp

theorem polyApply_monomial (n k x : Nat) (hk : k < n) :
    polyApply n (2 ^ k) x = advance64^[k] x := by
  obtain ⟨j, rfl⟩ : ∃ j, n = (j + 1) + k := ⟨n - k - 1, by omega⟩
  rw [show (2 : Nat) ^ k = 1 <<< k by rw [Nat.shiftLeft_eq, Nat.one_mul], polyApply_shiftLeft,
    polyApply_one]

/-! ## Products of polynomials -/

theorem clmul_succ (n p q : Nat) :
    clmul (n + 1) p q = (if p.testBit 0 then q else 0) ^^^ clmul n (p >>> 1) (q <<< 1) := by
  rw [clmul, strict_eq, strict_eq]

theorem shiftLeft_one_lt (q m : Nat) (h : q < 2 ^ m) : q <<< 1 < 2 ^ (m + 1) := by
  rw [Nat.shiftLeft_eq, Nat.pow_one, Nat.pow_succ]
  omega

theorem clmul_lt (n p q m : Nat) (hq : q < 2 ^ m) : clmul n p q < 2 ^ (n + m) := by
  induction n generalizing p q m with
  | zero => exact Nat.pow_pos (by decide)
  | succ n ih =>
    rw [clmul_succ]
    apply Nat.xor_lt_two_pow
    · split
      · exact lt_of_lt_of_le hq (Nat.pow_le_pow_right (by decide) (by omega))
      · exact Nat.pow_pos (by decide)
    · have := ih (p >>> 1) (q <<< 1) (m + 1) (shiftLeft_one_lt q m hq)
      rw [show n + 1 + m = n + (m + 1) by omega]
      exact this

theorem select_polyApply (b : Bool) (m q x : Nat) :
    polyApply m (if b then q else 0) x = (if b then polyApply m q x else 0) := by
  cases b
  · simp [polyApply_zero_poly]
  · simp

theorem polyApply_clmul (n p q x m : Nat) (hq : q < 2 ^ m) :
    polyApply (n + m) (clmul n p q) x = polyApply n p (polyApply m q x) := by
  induction n generalizing p q x m with
  | zero =>
    rw [show clmul 0 p q = 0 from rfl, polyApply_zero_poly]
    rfl
  | succ n ih =>
    rw [clmul_succ, polyApply_xor_poly, select_polyApply, polyApply_succ]
    have h1 : polyApply (n + 1 + m) q x = polyApply m q x := by
      rw [show n + 1 + m = m + (n + 1) by omega]
      exact polyApply_fuel m (n + 1) q x hq
    have h2 : polyApply (n + 1 + m) (clmul n (p >>> 1) (q <<< 1)) x
        = polyApply n (p >>> 1) (advance64 (polyApply m q x)) := by
      rw [show n + 1 + m = n + (m + 1) by omega,
        ih (p >>> 1) (q <<< 1) x (m + 1) (shiftLeft_one_lt q m hq), polyApply_shiftLeft_one,
        polyApply_advance]
    rw [h1, h2]

/-! ## Reduction modulo the minimal polynomial -/

set_option maxRecDepth 1000000 in
theorem minPoly64_basis : ∀ i, i < 64 → polyApply 65 minPoly64 (2 ^ i) = 0 := by
  decide!

/-- The advance step is a root of `minPoly64`. -/
theorem polyApply_minPoly64 (x : Nat) (hx : x < 2 ^ 64) : polyApply 65 minPoly64 x = 0 := by
  have hz : XorLinear (fun _ : Nat => (0 : Nat)) := fun _ _ => (Nat.xor_self 0).symm
  exact XorLinear.ext_below (polyApply_xorLinear 65 minPoly64) hz 64 minPoly64_basis x hx

theorem minPoly64_lt : minPoly64 < 2 ^ 65 := by decide

theorem pmodAux_succ (k p : Nat) :
    pmodAux (k + 1) p
      = pmodAux k (if p.testBit (64 + k) then p ^^^ (minPoly64 <<< k) else p) := by
  rw [pmodAux, strict_eq]

theorem polyApply_minPoly64_shift (k x : Nat) (hk : k ≤ 64) (hx : x < 2 ^ 64) :
    polyApply 129 (minPoly64 <<< k) x = 0 := by
  obtain ⟨j, hj⟩ : ∃ j, 129 = (65 + j) + k := ⟨64 - k, by omega⟩
  rw [hj, polyApply_shiftLeft, polyApply_fuel 65 j _ _ minPoly64_lt,
    polyApply_minPoly64 _ (advance64_iterate_lt k x hx)]

theorem polyApply_pmodAux (k p x : Nat) (hk : k ≤ 64) (hx : x < 2 ^ 64) :
    polyApply 129 (pmodAux k p) x = polyApply 129 p x := by
  induction k generalizing p with
  | zero => rfl
  | succ k ih =>
    rw [pmodAux_succ, ih _ (by omega)]
    split
    · rw [polyApply_xor_poly, polyApply_minPoly64_shift k x (by omega) hx, Nat.xor_zero]
    · rfl

theorem minPoly64_testBit (i : Nat) (hi : 64 < i) : minPoly64.testBit i = false :=
  Nat.testBit_lt_two_pow (lt_of_lt_of_le minPoly64_lt (Nat.pow_le_pow_right (by decide) hi))

theorem minPoly64_testBit_64 : minPoly64.testBit 64 = true := by decide

theorem pmod_step_lt (k p : Nat) (hp : p < 2 ^ (64 + (k + 1))) :
    (if p.testBit (64 + k) then p ^^^ (minPoly64 <<< k) else p) < 2 ^ (64 + k) := by
  apply Nat.lt_pow_two_of_testBit
  intro i hi
  have hpi : ∀ j, 64 + k < j → p.testBit j = false := fun j hj =>
    Nat.testBit_lt_two_pow (lt_of_lt_of_le hp (Nat.pow_le_pow_right (by decide) (by omega)))
  split
  · rename_i hbit
    rw [Nat.testBit_xor, Nat.testBit_shiftLeft]
    rcases Nat.eq_or_lt_of_le hi with heq | hlt
    · rw [← heq, hbit, show 64 + k - k = 64 by omega, minPoly64_testBit_64]
      simp
    · rw [hpi i hlt, minPoly64_testBit (i - k) (by omega)]
      simp
  · rename_i hbit
    rcases Nat.eq_or_lt_of_le hi with heq | hlt
    · rw [← heq]
      simpa using hbit
    · exact hpi i hlt

theorem pmodAux_lt (k p : Nat) (hp : p < 2 ^ (64 + k)) : pmodAux k p < 2 ^ 64 := by
  induction k generalizing p with
  | zero => exact hp
  | succ k ih =>
    rw [pmodAux_succ]
    exact ih _ (pmod_step_lt k p hp)

theorem mulMod_lt (p q : Nat) (hq : q < 2 ^ 64) : mulMod p q < 2 ^ 64 :=
  pmodAux_lt 64 _ (clmul_lt 64 p q 64 hq)

/-- The reduced product acts as the composition. -/
theorem polyApply_mulMod (p q x : Nat) (hq : q < 2 ^ 64) (hx : x < 2 ^ 64) :
    polyApply 64 (mulMod p q) x = polyApply 64 p (polyApply 64 q x) := by
  have h1 : polyApply 64 (mulMod p q) x = polyApply 129 (mulMod p q) x :=
    (polyApply_fuel 64 65 _ x (mulMod_lt p q hq)).symm
  have h2 : polyApply 129 (clmul 64 p q) x = polyApply 128 (clmul 64 p q) x :=
    polyApply_fuel 128 1 _ x (clmul_lt 64 p q 64 hq)
  rw [h1, mulMod, polyApply_pmodAux 64 _ x (le_refl 64) hx, h2]
  exact polyApply_clmul 64 p q x 64 hq

/-! ## Powers of the advance step -/

theorem powModAux_succ (k e r acc : Nat) :
    powModAux (k + 1) e r acc
      = powModAux k (e >>> 1) (mulMod r r) (if e.testBit 0 then mulMod acc r else acc) := by
  rw [powModAux, strict_eq, strict_eq]

theorem mod_two_pow_succ (e k : Nat) :
    e % 2 ^ (k + 1) = (if e.testBit 0 then 1 else 0) + 2 * ((e >>> 1) % 2 ^ k) := by
  rw [Nat.testBit_zero, Nat.shiftRight_eq_div_pow, Nat.pow_one, Nat.pow_succ', Nat.mod_mul]
  rcases Nat.mod_two_eq_zero_or_one e with h | h <;> simp [h]

theorem powModAux_spec (k e r acc a b : Nat) (hr : r < 2 ^ 64) (hacc : acc < 2 ^ 64)
    (hra : ∀ x, x < 2 ^ 64 → polyApply 64 r x = advance64^[a] x)
    (hab : ∀ x, x < 2 ^ 64 → polyApply 64 acc x = advance64^[b] x) :
    powModAux k e r acc < 2 ^ 64 ∧
      ∀ x, x < 2 ^ 64 →
        polyApply 64 (powModAux k e r acc) x = advance64^[b + a * (e % 2 ^ k)] x := by
  induction k generalizing e r acc a b with
  | zero =>
    refine ⟨hacc, fun x hx => ?_⟩
    rw [show powModAux 0 e r acc = acc from rfl, hab x hx, Nat.pow_zero, Nat.mod_one,
      Nat.mul_zero, Nat.add_zero]
  | succ k ih =>
    rw [powModAux_succ]
    have hr2 : mulMod r r < 2 ^ 64 := mulMod_lt r r hr
    have hr2a : ∀ x, x < 2 ^ 64 → polyApply 64 (mulMod r r) x = advance64^[a + a] x := by
      intro x hx
      rw [polyApply_mulMod r r x hr hx, hra x hx, hra _ (advance64_iterate_lt a x hx),
        ← Function.iterate_add_apply]
    rcases Bool.eq_false_or_eq_true (e.testBit 0) with hbit | hbit
    · have hacc2 : mulMod acc r < 2 ^ 64 := mulMod_lt acc r hr
      have hacc2b : ∀ x, x < 2 ^ 64 → polyApply 64 (mulMod acc r) x = advance64^[b + a] x := by
        intro x hx
        rw [polyApply_mulMod acc r x hr hx, hra x hx, hab _ (advance64_iterate_lt a x hx),
          ← Function.iterate_add_apply]
      obtain ⟨h1, h2⟩ := ih (e >>> 1) (mulMod r r) (mulMod acc r) (a + a) (b + a) hr2 hacc2
        hr2a hacc2b
      rw [hbit, if_pos rfl]
      refine ⟨h1, fun x hx => ?_⟩
      rw [h2 x hx, mod_two_pow_succ, hbit, if_pos rfl]
      congr 1
      ring
    · obtain ⟨h1, h2⟩ := ih (e >>> 1) (mulMod r r) acc (a + a) b hr2 hacc hr2a hab
      rw [hbit, if_neg (by simp)]
      refine ⟨h1, fun x hx => ?_⟩
      rw [h2 x hx, mod_two_pow_succ, hbit, if_neg (by simp)]
      congr 1
      ring

/-- The polynomial `powMod e` acts as `e` advance steps. -/
theorem powMod_spec (e : Nat) (he : e < 2 ^ 64) :
    powMod e < 2 ^ 64 ∧ ∀ x, x < 2 ^ 64 → polyApply 64 (powMod e) x = advance64^[e] x := by
  have h := powModAux_spec 64 e 2 1 1 0 (by decide) (by decide)
    (fun x _ => by
      rw [show (2 : Nat) = 2 ^ 1 from rfl, polyApply_monomial 64 1 x (by decide)])
    (fun x _ => by
      rw [polyApply_one 63 x]
      rfl)
  refine ⟨h.1, fun x hx => ?_⟩
  rw [show powMod e = powModAux 64 e 2 1 from rfl, h.2 x hx, Nat.mod_eq_of_lt he]
  congr 1
  omega

/-! ## The long period of the advance step of width 64 -/

set_option maxRecDepth 1000000 in
theorem longPeriod_certificate : mulMod (powMod longPeriod) shortPoly = shortPoly := by
  decide!

set_option maxRecDepth 1000000 in
theorem return_certificate_226639 :
    mulMod returnInverse226639 (mulMod (powMod 226639 ^^^ 1) shortPoly) = shortPoly := by
  decide!

set_option maxRecDepth 1000000 in
theorem return_certificate_524287 :
    mulMod returnInverse524287 (mulMod (powMod 524287 ^^^ 1) shortPoly) = shortPoly := by
  decide!

theorem shortCofactor_certificate : clmul 26 shortCofactor shortPoly = 2 ^ 32 ^^^ 2 ^ 1 := by
  decide

theorem shortPoly_lt : shortPoly < 2 ^ 8 := by decide

theorem longPart64_eq (x : Nat) : longPart64 x = polyApply 64 shortPoly x :=
  (polyApply_fuel_le 8 64 shortPoly x shortPoly_lt (by decide)).symm

theorem longPart64_lt (x : Nat) (hx : x < 2 ^ 64) : longPart64 x < 2 ^ 64 :=
  polyApply_lt 8 shortPoly x hx

theorem longPart64_iterate (k x : Nat) :
    longPart64 (advance64^[k] x) = advance64^[k] (longPart64 x) :=
  polyApply_iterate 8 shortPoly k x

/-- On the long component the advance step has period `2 ^ 57 - 1`. -/
theorem longPart64_period (x : Nat) (hx : x < 2 ^ 64) :
    advance64^[longPeriod] (longPart64 x) = longPart64 x := by
  have hq : shortPoly < 2 ^ 64 := by decide
  have h1 := polyApply_mulMod (powMod longPeriod) shortPoly x hq hx
  rw [longPeriod_certificate, ← longPart64_eq,
    (powMod_spec longPeriod (by decide)).2 _ (longPart64_lt x hx)] at h1
  exact h1.symm

/-- A certificate `g` shows that no non-zero long component returns after `d` steps. -/
theorem longPart64_no_return (g d x : Nat) (hd : d < 2 ^ 64)
    (hcert : mulMod g (mulMod (powMod d ^^^ 1) shortPoly) = shortPoly) (hx : x < 2 ^ 64)
    (h : advance64^[d] (longPart64 x) = longPart64 x) : longPart64 x = 0 := by
  have hq : shortPoly < 2 ^ 64 := by decide
  have hw := longPart64_lt x hx
  have h0 : polyApply 64 (powMod d ^^^ 1) (longPart64 x) = 0 := by
    rw [polyApply_xor_poly, (powMod_spec d hd).2 _ hw, polyApply_one 63, h, Nat.xor_self]
  have h1 := polyApply_mulMod g (mulMod (powMod d ^^^ 1) shortPoly) x
    (mulMod_lt _ _ hq) hx
  rw [hcert, polyApply_mulMod (powMod d ^^^ 1) shortPoly x hq hx, ← longPart64_eq, h0,
    polyApply_zero_vec] at h1
  exact h1

/-- A state with zero long component returns to its first successor after 31 more steps. -/
theorem advance64_short_cycle (x : Nat) (h : longPart64 x = 0) :
    advance64^[32] x = advance64 x := by
  have h1 := polyApply_clmul 26 shortCofactor shortPoly x 8 shortPoly_lt
  rw [shortCofactor_certificate, polyApply_xor_poly,
    polyApply_monomial (26 + 8) 32 x (by decide), polyApply_monomial (26 + 8) 1 x (by decide),
    show polyApply 8 shortPoly x = longPart64 x from rfl, h, polyApply_zero_vec] at h1
  exact Nat.xor_eq_zero.mp h1

theorem iterate_fixed_mul (g m w : Nat) (h : advance64^[g] w = w) :
    advance64^[g * m] w = w := by
  induction m with
  | zero => rfl
  | succ m ih => rw [Nat.mul_succ, Function.iterate_add_apply, h, ih]

theorem iterate_fixed_gcd (a b w : Nat) (ha : advance64^[a] w = w) (hb : advance64^[b] w = w) :
    advance64^[Nat.gcd a b] w = w := by
  induction a, b using Nat.gcd.induction with
  | H0 n => rw [Nat.gcd_zero_left]; exact hb
  | H1 m n _ ih =>
    rw [Nat.gcd_rec]
    apply ih _ ha
    have hn : n = n % m + m * (n / m) := (Nat.mod_add_div n m).symm
    have h2 := hb
    rw [hn, Function.iterate_add_apply, iterate_fixed_mul m (n / m) w ha] at h2
    exact h2

theorem longPeriod_factors : longPeriod = 226639 * 524287 * 1212847 := by decide

/-- A common divisor of `2 ^ 57 - 1` and a positive number below 1,000,000 divides
226639 or 524287. -/
theorem small_gcd_longPeriod (k : Nat) (hk0 : 0 < k) (hk : k < 1000000) :
    Nat.gcd k longPeriod ∣ 226639 ∨ Nat.gcd k longPeriod ∣ 524287 := by
  have hp1 : Nat.Prime 524287 := by norm_num
  have hp2 : Nat.Prime 1212847 := by norm_num
  have hc1 : Nat.Coprime (226639 * 524287) 1212847 := by norm_num
  have hc2 : Nat.Coprime 226639 524287 := by norm_num
  have hg : Nat.gcd k longPeriod
      = Nat.gcd k 226639 * Nat.gcd k 524287 * Nat.gcd k 1212847 := by
    rw [longPeriod_factors, Nat.Coprime.gcd_mul k hc1, Nat.Coprime.gcd_mul k hc2]
  have hle : Nat.gcd k longPeriod ≤ k := Nat.le_of_dvd hk0 (Nat.gcd_dvd_left k _)
  have ha : Nat.gcd k 226639 ∣ 226639 := Nat.gcd_dvd_right k _
  have ha0 : 0 < Nat.gcd k 226639 := Nat.gcd_pos_of_pos_left _ hk0
  rcases (Nat.dvd_prime hp2).mp (Nat.gcd_dvd_right k 1212847) with h3 | h3
  · rcases (Nat.dvd_prime hp1).mp (Nat.gcd_dvd_right k 524287) with h2 | h2
    · left
      rw [hg, h2, h3, Nat.mul_one, Nat.mul_one]
      exact ha
    · right
      rw [hg, h2, h3, Nat.mul_one] at hle ⊢
      have h1 : Nat.gcd k 226639 = 1 := by
        by_contra hne
        have : 2 ≤ Nat.gcd k 226639 := by omega
        have : 2 * 524287 ≤ Nat.gcd k 226639 * 524287 := Nat.mul_le_mul_right _ this
        omega
      rw [h1, Nat.one_mul]
  · exfalso
    rw [hg, h3] at hle
    have h2 : 0 < Nat.gcd k 524287 := Nat.gcd_pos_of_pos_left _ hk0
    have : 1 * 1212847 ≤ Nat.gcd k 226639 * Nat.gcd k 524287 * 1212847 :=
      Nat.mul_le_mul_right _ (Nat.mul_pos ha0 h2)
    omega

/-- A non-zero long component does not return within 1,000,000 steps. -/
theorem longPart64_no_short_return (x k : Nat) (hx : x < 2 ^ 64) (hw : longPart64 x ≠ 0)
    (hk0 : 0 < k) (hk : k < 1000000) : advance64^[k] (longPart64 x) ≠ longPart64 x := by
  intro h
  have hg := iterate_fixed_gcd k longPeriod _ h (longPart64_period x hx)
  rcases small_gcd_longPeriod k hk0 hk with ⟨m, hm⟩ | ⟨m, hm⟩
  · apply hw
    apply longPart64_no_return returnInverse226639 226639 x (by decide)
      return_certificate_226639 hx
    rw [hm]
    exact iterate_fixed_mul _ m _ hg
  · apply hw
    apply longPart64_no_return returnInverse524287 524287 x (by decide)
      return_certificate_524287 hx
    rw [hm]
    exact iterate_fixed_mul _ m _ hg

theorem iterate_cancel (n i j w : Nat) (hper : advance64^[n] w = w) (hi : i ≤ n)
    (hij : i ≤ j) (h : advance64^[i] w = advance64^[j] w) : advance64^[j - i] w = w := by
  have e1 : n = (n - i) + i := by omega
  have e2 : (n - i) + j = (j - i) + n := by omega
  have h1 : advance64^[n] w = advance64^[(n - i) + j] w := by
    conv_lhs => rw [e1]
    rw [Function.iterate_add_apply, Function.iterate_add_apply, h]
  rw [e2, Function.iterate_add_apply, hper] at h1
  exact h1.symm

/-- From a state with non-zero long component the first 1,000,000 values of the
advance step are pairwise distinct. -/
theorem orbit64_nodup (count s : Nat) (hc : count ≤ 1000000) (hs : s < 2 ^ 64)
    (hw : longPart64 s ≠ 0) : (orbit64 count s).Nodup := by
  rw [List.nodup_iff_getElem?_ne_getElem?]
  intro i j hij hj
  rw [orbit64_length] at hj
  rw [orbit64_getElem count s i (by omega), orbit64_getElem count s j hj]
  intro heq
  have heq2 : advance64^[i + 1] s = advance64^[j + 1] s := Option.some.inj heq
  have h1 : advance64^[i + 1] (longPart64 s) = advance64^[j + 1] (longPart64 s) := by
    rw [← longPart64_iterate, ← longPart64_iterate, heq2]
  have hN : (1000000 : Nat) ≤ longPeriod := by decide
  have h2 := iterate_cancel longPeriod (i + 1) (j + 1) _ (longPart64_period s hs) (by omega)
    (by omega) h1
  exact longPart64_no_short_return s (j + 1 - (i + 1)) hs hw (by omega) (by omega) h2

theorem orbit64_short_cycle (count s i : Nat) (hi : i + 31 < count)
    (hw : longPart64 s = 0) : (orbit64 count s)[i + 31]? = (orbit64 count s)[i]? := by
  rw [orbit64_getElem count s (i + 31) hi, orbit64_getElem count s i (by omega)]
  congr 1
  rw [show i + 31 + 1 = i + 32 by omega, Function.iterate_add_apply,
    advance64_short_cycle s hw, ← Function.iterate_succ_apply]

theorem longPart64_seedK : longPart64 seedK = 0 := by decide

theorem shortPoly_eq : shortPoly = 2 ^ 7 ^^^ 2 ^ 6 ^^^ 2 ^ 5 ^^^ 2 ^ 1 := by decide

theorem longPart64_eq_iterates (x : Nat) :
    longPart64 x
      = advance64^[7] x ^^^ advance64^[6] x ^^^ advance64^[5] x ^^^ advance64^[1] x := by
  rw [longPart64, shortPoly_eq, polyApply_xor_poly, polyApply_xor_poly, polyApply_xor_poly,
    polyApply_monomial 8 7 x (by decide), polyApply_monomial 8 6 x (by decide),
    polyApply_monomial 8 5 x (by decide), polyApply_monomial 8 1 x (by decide)]

/-! ## The claims -/

/-- C1 (determinism). Two generators constructed with the same non-zero seed,
whatever the clock reads at either construction, and driven through the same
sequence of calls, return the same outputs at every position and end in the same
state; when the calls are admissible the sequence completes with one output per call. -/
theorem determinism (n s : Nat) (now1 now2 : Int) (calls : List Call) (hs : s ≠ 0) :
    LFSR.drive n (LFSR.ctor n s now1) calls = LFSR.drive n (LFSR.ctor n s now2) calls ∧
      (1 ≤ n → (∀ c ∈ calls, c.wellFormed n) →
        ∃ outs st, LFSR.drive n (LFSR.ctor n s now1) calls = .ok (outs, st) ∧
          outs.length = calls.length) := by
  constructor
  · rw [ctor_of_ne_zero n s now2 hs, ← ctor_of_ne_zero n s now1 hs]
  · intro hn hc
    exact drive_ok n hn calls (LFSR.ctor n s now1) hc

theorem determinism_witness :
    LFSR.drive 8 (LFSR.ctor 8 1 0) [Call.random, Call.rand, Call.random_min_max 3 10]
        = LFSR.drive 8 (LFSR.ctor 8 1 1700000000)
            [Call.random, Call.rand, Call.random_min_max 3 10] ∧
      ∃ outs st,
        LFSR.drive 8 (LFSR.ctor 8 1 0) [Call.random, Call.rand, Call.random_min_max 3 10]
          = .ok (outs, st) ∧
        outs.length = [Call.random, Call.rand, Call.random_min_max 3 10].length :=
  ⟨(determinism 8 1 0 1700000000 [Call.random, Call.rand, Call.random_min_max 3 10]
      (by decide)).1,
    (determinism 8 1 0 1700000000 [Call.random, Call.rand, Call.random_min_max 3 10]
      (by decide)).2 (by decide) (by
        intro c hc
        simp only [List.mem_cons, List.mem_singleton, List.not_mem_nil, or_false] at hc
        rcases hc with h | h | h <;> subst h
        · trivial
        · trivial
        · exact ⟨by decide, by unfold bits; norm_num⟩)⟩

/-- C2. For width 64 and every state `s`, `random()` returns `f(f(f(f(s))))`, `f` being
the round of the specification, and leaves the state equal to the returned value;
whatever value the rotated `curr` member holds during the loop, the working
value the loop produces is the same. -/
theorem random_64_is_four_rounds (self : LFSR) :
    LFSR.random 8 self
        = .ok (specRound64 (specRound64 (specRound64 (specRound64 self.curr))),
            { seed := self.seed,
              curr := specRound64 (specRound64 (specRound64 (specRound64 self.curr))) }) ∧
      ∀ c : Nat,
        Except.map Prod.fst (LFSR.random_loop 8 4 (self.curr, { self with curr := c }))
          = .ok (specRound64 (specRound64 (specRound64 (specRound64 self.curr)))) := by
  constructor
  · rw [random_eq, mixRound_eight_iterate]
    rfl
  · intro c
    rw [random_loop_eq, mixRound_eight_iterate]
    rfl

/-- C3. For a type of at least one byte, `rand()` leaves the state that `random()` leaves
(which is the value `random()` returns) and returns that state divided by `2 ^ W - 1`;
replacing a `random()` call by a `rand()` call in a call sequence changes neither
the later outputs nor the final state. -/
theorem rand_shares_advance (n : Nat) (hn : 1 ≤ n) (self : LFSR) (pre post : List Call) :
    (∃ v st, LFSR.random n self = .ok (v, st) ∧ st.curr = v ∧
        LFSR.rand n self = .ok ((v : ℚ) / ((2 : ℚ) ^ bits n - 1), st)) ∧
      Except.map (fun r => (r.1.drop (pre.length + 1), r.2))
          (LFSR.drive n self (pre ++ Call.random :: post))
        = Except.map (fun r => (r.1.drop (pre.length + 1), r.2))
          (LFSR.drive n self (pre ++ Call.rand :: post)) := by
  refine ⟨⟨_, _, random_eq n self, rfl, ?_⟩, drive_replace n hn pre post self⟩
  have h : ((numericLimitsMax n : Nat) : ℚ) = (2 : ℚ) ^ bits n - 1 := by
    have := numericLimitsMax_succ n
    have h2 : ((numericLimitsMax n + 1 : Nat) : ℚ) = ((2 ^ bits n : Nat) : ℚ) := by rw [this]
    push_cast at h2
    linarith
  rw [rand_eq n hn, h]

theorem rand_shares_advance_witness :
    (∃ v st, LFSR.random 8 ⟨1, 1⟩ = .ok (v, st) ∧ st.curr = v ∧
        LFSR.rand 8 ⟨1, 1⟩ = .ok ((v : ℚ) / ((2 : ℚ) ^ bits 8 - 1), st)) ∧
      Except.map (fun r => (r.1.drop ([Call.rand].length + 1), r.2))
          (LFSR.drive 8 ⟨1, 1⟩ ([Call.rand] ++ Call.random :: [Call.random]))
        = Except.map (fun r => (r.1.drop ([Call.rand].length + 1), r.2))
          (LFSR.drive 8 ⟨1, 1⟩ ([Call.rand] ++ Call.rand :: [Call.random])) :=
  rand_shares_advance 8 (by decide) ⟨1, 1⟩ [Call.rand] [Call.random]

/-- C4 (unit-interval containment). For a type of at least one byte and every state,
`rand()` returns a value `u` with `0 ≤ u ≤ 1`. -/
theorem rand_unit_interval (n : Nat) (hn : 1 ≤ n) (self : LFSR) :
    ∃ u st, LFSR.rand n self = .ok (u, st) ∧ 0 ≤ u ∧ u ≤ 1 :=
  ⟨_, _, rand_eq n hn self, mix_div_max_bounds n hn self.curr⟩

theorem rand_unit_interval_witness :
    ∃ u st, LFSR.rand 8 ⟨1, 1⟩ = .ok (u, st) ∧ 0 ≤ u ∧ u ≤ 1 :=
  rand_unit_interval 8 (by decide) ⟨1, 1⟩

/-- C5 (range containment). For every state and all values `min ≤ max` of type `T`,
`random(min, max)` returns a value `v` with `min ≤ v ≤ max`. -/
theorem random_min_max_range (n : Nat) (hn : 1 ≤ n) (self : LFSR) (min max : Nat)
    (hle : min ≤ max) (hmax : max < 2 ^ bits n) :
    ∃ v st, LFSR.random_min_max n self min max = .ok (v, st) ∧ min ≤ v ∧ v ≤ max :=
  random_min_max_ok_bounds n hn self min max hle hmax

theorem random_min_max_range_witness :
    ∃ v st, LFSR.random_min_max 8 ⟨1, 1⟩ 3 10 = .ok (v, st) ∧ 3 ≤ v ∧ v ≤ 10 :=
  random_min_max_range 8 (by decide) ⟨1, 1⟩ 3 10 (by decide) (by unfold bits; norm_num)

/-- C6. For a type of at most 64 bits, every state and all values `min ≤ max` of type
`T`, `random(min, max)` performs one advance: in the `long double` arithmetic of the
code it returns the truncation of `min + (max - min) * u`, the product and the sum
rounded, for the value `u` that a single `rand()` call returns from the same state;
it leaves the state that this `rand()` call, and a single `random()` call, leave,
whatever `min` and `max` are; the exact reading leaves the same state. -/
theorem random_min_max_one_advance (n : Nat) (hn : 1 ≤ n) (hn8 : n ≤ 8) (self : LFSR)
    (min max : Nat) (hle : min ≤ max) (hmax : max < 2 ^ bits n) :
    ∃ u st, LFSR.rand_long_double n self = .ok (u, st) ∧
      LFSR.random_min_max_long_double n self min max
        = .ok ((truncate (roundLongDouble ((min : ℚ)
            + roundLongDouble (((max : ℚ) - (min : ℚ)) * u)))).toNat, st) ∧
      (∃ v, LFSR.random n self = .ok (v, st)) ∧
      (∃ w, LFSR.random_min_max n self min max = .ok (w, st)) := by
  refine ⟨_, _, rand_long_double_eq n hn hn8 self, ?_, ⟨_, random_eq n self⟩,
    ⟨_, random_min_max_eq n hn self min max hle hmax⟩⟩
  rw [random_min_max_long_double_eq n hn hn8 self min max hle hmax, Nat.cast_sub hle]

theorem random_min_max_one_advance_witness :
    (∃ u st, LFSR.rand_long_double 8 ⟨1, 1⟩ = .ok (u, st) ∧
      LFSR.random_min_max_long_double 8 ⟨1, 1⟩ 1 18446744073709551615
        = .ok ((truncate (roundLongDouble ((((1 : Nat) : ℚ))
            + roundLongDouble ((((18446744073709551615 : Nat) : ℚ) - ((1 : Nat) : ℚ)) * u)))).toNat,
            st) ∧
      (∃ v, LFSR.random 8 ⟨1, 1⟩ = .ok (v, st)) ∧
      (∃ w, LFSR.random_min_max 8 ⟨1, 1⟩ 1 18446744073709551615 = .ok (w, st))) ∧
    LFSR.random_min_max_long_double 8 ⟨1, 1⟩ 1 18446744073709551615
      = .ok (1109397278920, ⟨1, 1109397278919⟩) :=
  ⟨random_min_max_one_advance 8 (by decide) (by decide) ⟨1, 1⟩ 1 18446744073709551615
      (by decide) (by unfold bits; norm_num),
    random_min_max_long_double_state_one 1⟩

/-- C7. Construction always yields a generator whose two fields are equal: to the
seed when the seed is not zero, to the clock value (converted to `T`, which leaves
a clock value in the range of `T` unchanged) when the seed is zero. -/
theorem ctor_sets_both_fields (n s : Nat) (now : Int) :
    (s ≠ 0 → LFSR.ctor n s now = { seed := s, curr := s }) ∧
      LFSR.ctor n 0 now = { seed := intToT n now, curr := intToT n now } ∧
      (0 ≤ now → now < 2 ^ bits n → ((intToT n now : Nat) : Int) = now) ∧
      (LFSR.ctor n s now).seed = (LFSR.ctor n s now).curr := by
  refine ⟨ctor_of_ne_zero n s now, rfl, ?_, rfl⟩
  intro h0 h1
  unfold intToT
  rw [Int.emod_eq_of_lt h0 h1]
  exact Int.toNat_of_nonneg h0

theorem ctor_sets_both_fields_witness :
    LFSR.ctor 8 5 1700000000 = { seed := 5, curr := 5 } ∧
      ((intToT 8 1700000000 : Nat) : Int) = 1700000000 :=
  ⟨(ctor_sets_both_fields 8 5 1700000000).1 (by decide),
    (ctor_sets_both_fields 8 5 1700000000).2.2.1 (by decide) (by unfold bits; norm_num)⟩

/-- C8. Each of `random()`, `rand()` and `random(min, max)` leaves the `seed` field as
it was, and what it returns and the `curr` it leaves depend on `curr` alone: two
generators with the same `curr` and any `seed` fields give the same results. -/
theorem seed_is_frame (n : Nat) (hn : 1 ≤ n) (self other : LFSR) (min max : Nat)
    (hle : min ≤ max) (hmax : max < 2 ^ bits n) (hcurr : self.curr = other.curr) :
    (Except.map (fun r => r.2.seed) (LFSR.random n self) = .ok self.seed ∧
      Except.map (fun r => r.2.seed) (LFSR.rand n self) = .ok self.seed ∧
      Except.map (fun r => r.2.seed) (LFSR.random_min_max n self min max) = .ok self.seed) ∧
    (Except.map (fun r => (r.1, r.2.curr)) (LFSR.random n self)
        = Except.map (fun r => (r.1, r.2.curr)) (LFSR.random n other) ∧
      Except.map (fun r => (r.1, r.2.curr)) (LFSR.rand n self)
        = Except.map (fun r => (r.1, r.2.curr)) (LFSR.rand n other) ∧
      Except.map (fun r => (r.1, r.2.curr)) (LFSR.random_min_max n self min max)
        = Except.map (fun r => (r.1, r.2.curr)) (LFSR.random_min_max n other min max)) := by
  simp only [random_eq, rand_eq n hn, random_min_max_eq n hn _ min max hle hmax, hcurr,
    Except.map, and_self]

theorem seed_is_frame_witness :
    (Except.map (fun r => r.2.seed) (LFSR.random 8 ⟨1, 7⟩) = .ok 1 ∧
      Except.map (fun r => r.2.seed) (LFSR.rand 8 ⟨1, 7⟩) = .ok 1 ∧
      Except.map (fun r => r.2.seed) (LFSR.random_min_max 8 ⟨1, 7⟩ 3 10) = .ok 1) ∧
    (Except.map (fun r => (r.1, r.2.curr)) (LFSR.random 8 ⟨1, 7⟩)
        = Except.map (fun r => (r.1, r.2.curr)) (LFSR.random 8 ⟨2, 7⟩) ∧
      Except.map (fun r => (r.1, r.2.curr)) (LFSR.rand 8 ⟨1, 7⟩)
        = Except.map (fun r => (r.1, r.2.curr)) (LFSR.rand 8 ⟨2, 7⟩) ∧
      Except.map (fun r => (r.1, r.2.curr)) (LFSR.random_min_max 8 ⟨1, 7⟩ 3 10)
        = Except.map (fun r => (r.1, r.2.curr)) (LFSR.random_min_max 8 ⟨2, 7⟩ 3 10)) :=
  seed_is_frame 8 (by decide) ⟨1, 7⟩ ⟨2, 7⟩ 3 10 (by decide) (by unfold bits; norm_num) rfl

/-- C9. For width 64 no generation operation can fail: every shift the loop performs
(by 7, 9, 13, 1 and `sizeof(T) * 8 - 1 = 63`) is defined, the divisor of `rand()` is
not zero, and so `random()` and `rand()` return a result from every state, and
`random(min, max)` returns a result for all values `min ≤ max` of type `T`. -/
theorem operations_total_64 (self : LFSR) (v : Nat) :
    (shr 8 v 7 = .ok (v >>> 7) ∧ shl 8 v 9 = .ok ((v <<< 9) % 2 ^ 64) ∧
      shr 8 v 13 = .ok (v >>> 13) ∧ shl 8 v 1 = .ok ((v <<< 1) % 2 ^ 64) ∧
      shr 8 v 1 = .ok (v >>> 1) ∧ 8 * 8 - 1 = 63 ∧
      shl 8 v (8 * 8 - 1) = .ok ((v <<< 63) % 2 ^ 64)) ∧
    numericLimitsMax 8 = 2 ^ 64 - 1 ∧ numericLimitsMax 8 ≠ 0 ∧
    (∃ r, LFSR.random_loop 8 4 (self.curr, self) = .ok r) ∧
    (∃ r, LFSR.random 8 self = .ok r) ∧
    (∃ r, LFSR.rand_loop 8 4 (self.curr, self) = .ok r) ∧
    (∃ r, LFSR.rand 8 self = .ok r) ∧
    (∀ min max : Nat, min ≤ max → max < 2 ^ 64 →
      ∃ r, LFSR.random_min_max 8 self min max = .ok r ∧ r.1 < 2 ^ 64) := by
  refine ⟨⟨rfl, rfl, rfl, rfl, rfl, rfl, rfl⟩, rfl, by decide, ⟨_, random_loop_eq 8 4 _ _⟩,
    ⟨_, random_eq 8 self⟩, ⟨_, (rand_loop_eq_random_loop 8 4 _).trans (random_loop_eq 8 4 _ _)⟩,
    ⟨_, rand_eq 8 (by decide) self⟩, ?_⟩
  intro min max hle hmax
  obtain ⟨r, st, h, -, hhi⟩ := random_min_max_ok_bounds 8 (by decide) self min max hle hmax
  exact ⟨(r, st), h, lt_of_le_of_lt hhi hmax⟩

theorem operations_total_64_witness :
    ∃ r, LFSR.random_min_max 8 ⟨1, 1⟩ 3 10 = .ok r ∧ r.1 < 2 ^ 64 :=
  (operations_total_64 ⟨1, 1⟩ 0).2.2.2.2.2.2.2 3 10 (by decide) (by norm_num)

/-- C10, counterexample. The positive seed `seedP` of width 64 is accepted unchanged
by the constructor, and every one of the first 1,000,000 outputs of `random()` is then
`seedP`: a single value is repeated 1,000,000 times. -/
theorem aperiodicity_counterexample :
    0 < seedP ∧ seedP < 2 ^ 64 ∧
      ∃ outs, harness_outputs 8 1000000 (LFSR.ctor 8 seedP 0) = .ok outs ∧
        outs.length = 1000000 ∧ outs.count seedP = 1000000 ∧ ∀ v ∈ outs, v = seedP := by
  refine ⟨by decide, by decide, List.replicate 1000000 seedP, ?_, ?_, ?_, ?_⟩
  · rw [harness_outputs_eq, ctor_of_ne_zero 8 seedP 0 (by decide)]
    exact congrArg Except.ok (orbit64_fixed 1000000 seedP advance64_seedP)
  · exact List.length_replicate _ _
  · exact List.count_replicate_self _ _
  · intro v hv
    exact List.eq_of_mem_replicate hv

/-- C10, amended. For width 64 and every positive seed whose long component (the xor of
the iterates 7, 6, 5 and 1 of the advance step at the seed) is not zero, seed 1
among them, the loop of the harness obtains 1,000,000 outputs of `random()` that are
pairwise distinct and not zero: no value is repeated. For every positive seed whose
long component is zero, `seedK`, `seedP`, `seedK xor seedP` and `0x01093B1E0800E6F4`
among them, the outputs repeat with period 31. -/
theorem aperiodicity_long_component (s : Nat) (now : Int) (hpos : 0 < s) (hlt : s < 2 ^ 64) :
    (longPart64 s
        = advance64^[7] s ^^^ advance64^[6] s ^^^ advance64^[5] s ^^^ advance64^[1] s ∧
      longPart64 1 ≠ 0 ∧ longPart64 seedK = 0 ∧ longPart64 seedP = 0 ∧
      longPart64 (seedK ^^^ seedP) = 0 ∧ longPart64 0x01093B1E0800E6F4 = 0) ∧
    (longPart64 s ≠ 0 →
      ∃ outs, harness_outputs 8 1000000 (LFSR.ctor 8 s now) = .ok outs ∧
        outs.length = 1000000 ∧ outs.Nodup ∧ (∀ v, outs.count v ≤ 1) ∧
        ∀ v ∈ outs, v ≠ 0) ∧
    (longPart64 s = 0 →
      ∃ outs, harness_outputs 8 1000000 (LFSR.ctor 8 s now) = .ok outs ∧
        outs.length = 1000000 ∧ ∀ i, i + 31 < 1000000 → outs[i + 31]? = outs[i]?) := by
  have hrun : harness_outputs 8 1000000 (LFSR.ctor 8 s now) = .ok (orbit64 1000000 s) := by
    rw [harness_outputs_eq, ctor_of_ne_zero 8 s now (by omega)]
  refine ⟨⟨longPart64_eq_iterates s, by decide, longPart64_seedK, by decide, by decide,
    by decide⟩, ?_, ?_⟩
  · intro hw
    have hnd := orbit64_nodup 1000000 s (le_refl _) hlt hw
    have hK : s ≠ seedK := by
      intro h
      rw [h] at hw
      exact hw longPart64_seedK
    refine ⟨orbit64 1000000 s, hrun, orbit64_length _ _, hnd,
      List.nodup_iff_count_le_one.mp hnd, fun v hv => ?_⟩
    exact (orbit64_live 1000000 s hlt (by omega) hK v hv).1
  · intro hw
    exact ⟨orbit64 1000000 s, hrun, orbit64_length _ _,
      fun i hi => orbit64_short_cycle 1000000 s i hi hw⟩

theorem aperiodicity_long_component_witness :
    (∃ outs, harness_outputs 8 1000000 (LFSR.ctor 8 1 0) = .ok outs ∧
        outs.length = 1000000 ∧ outs.Nodup ∧ (∀ v, outs.count v ≤ 1) ∧
        ∀ v ∈ outs, v ≠ 0) ∧
      ∃ outs, harness_outputs 8 1000000 (LFSR.ctor 8 0x01093B1E0800E6F4 0) = .ok outs ∧
        outs.length = 1000000 ∧ ∀ i, i + 31 < 1000000 → outs[i + 31]? = outs[i]? :=
  ⟨(aperiodicity_long_component 1 0 (by decide) (by decide)).2.1 (by decide),
    (aperiodicity_long_component 0x01093B1E0800E6F4 0 (by decide) (by decide)).2.2
      (by decide)⟩

/-- C11 (regression vector). For width 64 and seed 1, whatever the clock reads, the
first call of `random()` returns 1109397278919, which is `0x1024D3B10C7`, and leaves
the state equal to that value. -/
theorem regression_vector_seed_one (now : Int) :
    LFSR.random 8 (LFSR.ctor 8 1 now)
        = .ok (1109397278919, { seed := 1, curr := 1109397278919 }) ∧
      (1109397278919 : Nat) = 0x1024D3B10C7 := by
  constructor
  · rw [ctor_of_ne_zero 8 1 now (by decide), random_eight]
    rfl
  · rfl

/-- C12, counterexample. Width 64, state `2 ^ 63`, `random(2 ^ 63, 2 ^ 63 + 1)`: in the
`long double` arithmetic of the code the unit-interval value is below 1 and the raw
mixed value is not `2 ^ 64 - 1`, yet the sum rounds up and the call returns `max`. -/
theorem max_reached_below_boundary :
    ∃ u st, LFSR.rand_long_double 8 ⟨1, 9223372036854775808⟩ = .ok (u, st) ∧
      u < 1 ∧ st.curr ≠ 2 ^ 64 - 1 ∧
      LFSR.random_min_max_long_double 8 ⟨1, 9223372036854775808⟩
          9223372036854775808 9223372036854775809
        = .ok (9223372036854775809, st) := by
  refine ⟨_, _, rand_long_double_eq 8 (by decide) (by decide) _, ?_, ?_,
    random_min_max_long_double_state_two_pow_63 1 |>.trans ?_⟩
  · simp only [advance64_eq_mixRound, advance64_two_pow_63, numericLimitsMax_eight]
    have hu : (((12650133774859797152 : Nat) : ℚ) / ((18446744073709551615 : Nat) : ℚ))
        = (12650133774859797152 : ℚ) / 18446744073709551615 := by norm_num
    rw [hu, round_unit_state_two_pow_63]
    norm_num
  · simp only [advance64_eq_mixRound, advance64_two_pow_63]
    decide
  · simp only [advance64_eq_mixRound, advance64_two_pow_63]

/-- C12, amended. For all values `min < max` of type `T` and every state: read exactly,
`random(min, max)` is below `max` whenever the unit-interval value `u` is below 1, and
`u = 1` exactly when the raw mixed value is `2 ^ W - 1`; in the `long double`
arithmetic of the code, for a type of at most 64 bits, the result is at most `max`, it
is `max` when the raw mixed value is `2 ^ W - 1`, and it is `max` only if
`(max - min) * (1 - u) < 1`. -/
theorem max_only_at_boundary (n : Nat) (hn : 1 ≤ n) (self : LFSR) (min max : Nat)
    (hlt : min < max) (hmax : max < 2 ^ bits n) :
    (∃ u st v, LFSR.rand n self = .ok (u, st) ∧
      LFSR.random_min_max n self min max = .ok (v, st) ∧
      (u < 1 → v < max) ∧
      (v = max → u = 1 ∧ st.curr = 2 ^ bits n - 1) ∧
      (u = 1 ↔ st.curr = 2 ^ bits n - 1)) ∧
    (n ≤ 8 →
      ∃ u st v, LFSR.rand_long_double n self = .ok (u, st) ∧
        LFSR.random_min_max_long_double n self min max = .ok (v, st) ∧
        min ≤ v ∧ v ≤ max ∧
        (st.curr = 2 ^ bits n - 1 → u = 1 ∧ v = max) ∧
        (v = max → ((max : ℚ) - (min : ℚ)) * (1 - u) < 1)) := by
  constructor
  · obtain ⟨h0, h1⟩ := mix_div_max_bounds n hn self.curr
    have hiff := mix_div_max_eq_one n hn ((mixRound n)^[4] self.curr)
    have hbelow : (((mixRound n)^[4] self.curr : Nat) : ℚ) / (numericLimitsMax n : ℚ) < 1 →
        (truncate ((min : ℚ) + ((max - min : Nat) : ℚ) *
          ((((mixRound n)^[4] self.curr : Nat) : ℚ) / (numericLimitsMax n : ℚ)))).toNat
          < max := by
      intro hu
      obtain ⟨hlo, -⟩ := truncate_scaled_bounds min max _ hlt.le h0 h1
      have := truncate_scaled_lt min max _ hlt h0 hu
      omega
    refine ⟨_, _, _, rand_eq n hn self, random_min_max_eq n hn self min max hlt.le hmax,
      hbelow, ?_, hiff⟩
    intro hv
    have hu : (((mixRound n)^[4] self.curr : Nat) : ℚ) / (numericLimitsMax n : ℚ) = 1 := by
      by_contra hne
      have := hbelow (lt_of_le_of_ne h1 hne)
      omega
    exact ⟨hu, hiff.mp hu⟩
  · intro hn8
    have hmax64 : max < 2 ^ 64 := lt_of_lt_of_le hmax (two_pow_bits_le n hn8)
    obtain ⟨h0, h1⟩ := rand_long_double_bounds n hn self.curr
    obtain ⟨hs0, hs1⟩ := scaled_long_double_bounds min max _ hlt.le hmax64 h0 h1
    obtain ⟨hlo, hhi⟩ := truncate_bounds_of_bounds min max _ hs0 hs1
    refine ⟨_, _, _, rand_long_double_eq n hn hn8 self,
      random_min_max_long_double_eq n hn hn8 self min max hlt.le hmax, by omega, by omega,
      ?_, ?_⟩
    · intro hraw
      have hraw2 : (mixRound n)^[4] self.curr = 2 ^ bits n - 1 := hraw
      rw [hraw2, round_unit_of_max n hn, scaled_long_double_of_one min max hlt.le hmax64,
        truncate_natCast]
      exact ⟨rfl, Int.toNat_natCast max⟩
    · intro hv
      by_contra hnot
      have hge : 1 ≤ ((max : ℚ) - (min : ℚ)) * (1 - roundLongDouble
          ((((mixRound n)^[4] self.curr : Nat) : ℚ) / (numericLimitsMax n : ℚ))) :=
        not_lt.mp hnot
      have hpred := scaled_long_double_le_pred min max _ hlt hmax64 h0 hge
      have := toNat_truncate_lt _ max (by omega) (le_trans (Nat.cast_nonneg _) hs0) hpred
      omega

theorem max_only_at_boundary_witness :
    (∃ u st v, LFSR.rand 8 ⟨1, 1⟩ = .ok (u, st) ∧
      LFSR.random_min_max 8 ⟨1, 1⟩ 3 10 = .ok (v, st) ∧
      (u < 1 → v < 10) ∧
      (v = 10 → u = 1 ∧ st.curr = 2 ^ bits 8 - 1) ∧
      (u = 1 ↔ st.curr = 2 ^ bits 8 - 1)) ∧
    ∃ u st v, LFSR.rand_long_double 8 ⟨1, 1⟩ = .ok (u, st) ∧
      LFSR.random_min_max_long_double 8 ⟨1, 1⟩ 3 10 = .ok (v, st) ∧
      3 ≤ v ∧ v ≤ 10 ∧
      (st.curr = 2 ^ bits 8 - 1 → u = 1 ∧ v = 10) ∧
      (v = 10 → (((10 : Nat) : ℚ) - ((3 : Nat) : ℚ)) * (1 - u) < 1) :=
  ⟨(max_only_at_boundary 8 (by decide) ⟨1, 1⟩ 3 10 (by decide) (by unfold bits; norm_num)).1,
    (max_only_at_boundary 8 (by decide) ⟨1, 1⟩ 3 10 (by decide) (by unfold bits; norm_num)).2
      (by decide)⟩

/-- C13 (zero is absorbing). Whatever the width, from the state 0 `random()` returns 0
and leaves the state 0, and so does every later call; for a type of at least one byte
`rand()` returns 0, `random(min, max)` returns `min`, both leave the state 0, and every
sequence of calls returns the same constant for each call and ends in the state 0. -/
theorem zero_is_absorbing (n seed : Nat) :
    LFSR.random n { seed := seed, curr := 0 } = .ok (0, { seed := seed, curr := 0 }) ∧
      (∀ count, harness_outputs n count { seed := seed, curr := 0 }
        = .ok (List.replicate count 0)) ∧
      (1 ≤ n →
        LFSR.rand n { seed := seed, curr := 0 } = .ok (0, { seed := seed, curr := 0 }) ∧
        (∀ min max, min < 2 ^ bits n →
          LFSR.random_min_max n { seed := seed, curr := 0 } min max
            = .ok (min, { seed := seed, curr := 0 })) ∧
        (∀ calls : List Call, (∀ c ∈ calls, c.argumentsInRange n) →
          LFSR.drive n { seed := seed, curr := 0 } calls
            = .ok (calls.map Call.zeroOutput, { seed := seed, curr := 0 }))) :=
  ⟨random_zero n seed, harness_outputs_zero n seed, fun hn =>
    ⟨rand_zero n seed hn, fun min max hmin => random_min_max_zero n seed min max hn hmin,
      fun calls hc => drive_zero n seed hn calls hc⟩⟩

theorem zero_is_absorbing_witness :
    LFSR.rand 8 { seed := 1, curr := 0 } = .ok (0, { seed := 1, curr := 0 }) ∧
      LFSR.random_min_max 8 { seed := 1, curr := 0 } 3 10 = .ok (3, { seed := 1, curr := 0 }) :=
  ⟨((zero_is_absorbing 8 1).2.2 (by decide)).1,
    ((zero_is_absorbing 8 1).2.2 (by decide)).2.1 3 10 (by unfold bits; norm_num)⟩

/-- C14. The non-zero seed `0x98BDBF1C19224C99` of width 64, the only value that the
three xorshift steps send to `2 ^ 63`, is accepted unchanged by the constructor;
the first call of `random()` then returns 0 and every later call returns 0. -/
theorem legal_seed_kills_generator (now : Int) (count : Nat) :
    seedK = 0x98BDBF1C19224C99 ∧ seedK ≠ 0 ∧ seedK < 2 ^ 64 ∧
      xorshift64 seedK = 2 ^ 63 ∧
      (∀ x, x < 2 ^ 64 → xorshift64 x = 2 ^ 63 → x = seedK) ∧
      LFSR.ctor 8 seedK now = { seed := seedK, curr := seedK } ∧
      LFSR.random 8 (LFSR.ctor 8 seedK now) = .ok (0, { seed := seedK, curr := 0 }) ∧
      harness_outputs 8 count (LFSR.ctor 8 seedK now) = .ok (List.replicate count 0) := by
  have hc : LFSR.ctor 8 seedK now = { seed := seedK, curr := seedK } :=
    ctor_of_ne_zero 8 seedK now (by decide)
  refine ⟨rfl, by decide, by decide, by decide, ?_, hc, ?_, ?_⟩
  · intro x hx h
    have hs : specRound64 x = 0 := by
      rw [specRound64_eq_feedback, h]
      decide
    have ha : advance64 x = 0 := by
      unfold advance64
      rw [hs]
      decide
    rcases advance64_eq_zero x hx ha with h0 | hK
    · rw [h0] at h
      exfalso
      revert h
      decide
    · exact hK
  · rw [hc, random_eight, advance64_seedK]
  · rw [hc, harness_outputs_eq, orbit64_seedK]

theorem legal_seed_kills_generator_witness :
    seedK < 2 ^ 64 ∧ xorshift64 seedK = 2 ^ 63 ∧ seedK = seedK :=
  ⟨(legal_seed_kills_generator 0 3).2.2.1, (legal_seed_kills_generator 0 3).2.2.2.1,
    (legal_seed_kills_generator 0 3).2.2.2.2.1 seedK (legal_seed_kills_generator 0 3).2.2.1
      (legal_seed_kills_generator 0 3).2.2.2.1⟩

/-- C15 (non-degeneracy). For width 64 and every state `s` other than 0 and `seedK`,
`random()` returns a value other than 0 and `seedK`; so a generator constructed with
such a seed never outputs 0 and never reaches the state 0 or `seedK`, however many
calls of whatever generation operation are made. -/
theorem nondegeneracy_invariant (seed s : Nat) (now : Int) (hlt : s < 2 ^ 64) (h0 : s ≠ 0)
    (hK : s ≠ seedK) :
    (∃ r, LFSR.random 8 { seed := seed, curr := s } = .ok (r, { seed := seed, curr := r }) ∧
        r ≠ 0 ∧ r ≠ seedK ∧ r < 2 ^ 64) ∧
      (∀ count, ∃ outs, harness_outputs 8 count (LFSR.ctor 8 s now) = .ok outs ∧
        outs.length = count ∧ ∀ v ∈ outs, v ≠ 0 ∧ v ≠ seedK) ∧
      (∀ calls : List Call, (∀ c ∈ calls, c.wellFormed 8) →
        ∃ outs st, LFSR.drive 8 (LFSR.ctor 8 s now) calls = .ok (outs, st) ∧
          st.curr ≠ 0 ∧ st.curr ≠ seedK) := by
  have hc : LFSR.ctor 8 s now = { seed := s, curr := s } := ctor_of_ne_zero 8 s now h0
  obtain ⟨ha, hb⟩ := advance64_live s hlt h0 hK
  refine ⟨⟨advance64 s, random_eight _, ha, hb, advance64_lt s⟩, ?_, ?_⟩
  · intro count
    refine ⟨orbit64 count s, ?_, orbit64_length count s, orbit64_live count s hlt h0 hK⟩
    rw [hc, harness_outputs_eq]
  · intro calls hw
    rw [hc]
    obtain ⟨outs, st, hd, -, -, h2, h3⟩ :=
      drive_eight_live calls { seed := s, curr := s } hw hlt h0 hK
    exact ⟨outs, st, hd, h2, h3⟩

theorem nondegeneracy_invariant_witness :
    (∃ r, LFSR.random 8 { seed := 1, curr := 1 } = .ok (r, { seed := 1, curr := r }) ∧
        r ≠ 0 ∧ r ≠ seedK ∧ r < 2 ^ 64) ∧
      (∀ count, ∃ outs, harness_outputs 8 count (LFSR.ctor 8 1 0) = .ok outs ∧
        outs.length = count ∧ ∀ v ∈ outs, v ≠ 0 ∧ v ≠ seedK) ∧
      (∀ calls : List Call, (∀ c ∈ calls, c.wellFormed 8) →
        ∃ outs st, LFSR.drive 8 (LFSR.ctor 8 1 0) calls = .ok (outs, st) ∧
          st.curr ≠ 0 ∧ st.curr ≠ seedK) :=
  nondegeneracy_invariant 1 1 0 (by decide) (by decide) (by decide)

/-- C16 (low-bit bias). Whatever the width and the state, the value `random()` returns,
which is the new state, has its two lowest bits equal: it is 0 or 3 modulo 4. For a
type of at least one byte the state that `rand()` and `random(min, max)` leave has
the same property. -/
theorem low_bits_equal (n : Nat) (self : LFSR) :
    (∃ v, LFSR.random n self = .ok (v, { seed := self.seed, curr := v }) ∧
        (v % 4 = 0 ∨ v % 4 = 3) ∧ v.testBit 0 = v.testBit 1) ∧
      (1 ≤ n →
        (∃ u st, LFSR.rand n self = .ok (u, st) ∧
          (st.curr % 4 = 0 ∨ st.curr % 4 = 3) ∧ st.curr.testBit 0 = st.curr.testBit 1) ∧
        (∀ min max, min ≤ max → max < 2 ^ bits n →
          ∃ v st, LFSR.random_min_max n self min max = .ok (v, st) ∧
            (st.curr % 4 = 0 ∨ st.curr % 4 = 3) ∧
            st.curr.testBit 0 = st.curr.testBit 1)) := by
  have hm := mixRound_iterate_mod_four n 3 self.curr
  have ht := testBit_zero_eq_testBit_one _ hm
  refine ⟨⟨_, random_eq n self, hm, ht⟩, fun hn => ⟨⟨_, _, rand_eq n hn self, hm, ht⟩, ?_⟩⟩
  intro min max hle hmax
  exact ⟨_, _, random_min_max_eq n hn self min max hle hmax, hm, ht⟩

theorem low_bits_equal_witness :
    (∃ u st, LFSR.rand 8 ⟨1, 1⟩ = .ok (u, st) ∧
        (st.curr % 4 = 0 ∨ st.curr % 4 = 3) ∧ st.curr.testBit 0 = st.curr.testBit 1) ∧
      ∃ v st, LFSR.random_min_max 8 ⟨1, 1⟩ 3 10 = .ok (v, st) ∧
        (st.curr % 4 = 0 ∨ st.curr % 4 = 3) ∧ st.curr.testBit 0 = st.curr.testBit 1 :=
  ⟨((low_bits_equal 8 ⟨1, 1⟩).2 (by decide)).1,
    ((low_bits_equal 8 ⟨1, 1⟩).2 (by decide)).2 3 10 (by decide) (by unfold bits; norm_num)⟩

/-- C17 (linearity over xor). For width 64 and all states `a` and `b`, the value
`random()` returns from `a xor b` is the xor of the values it returns from `a` and
from `b`; the sum that reinserts the feedback bit never carries: it is a bitwise or. -/
theorem advance_is_xor_linear (seedA seedB seedAB a b : Nat) :
    (∃ ra rb,
        LFSR.random 8 { seed := seedA, curr := a } = .ok (ra, { seed := seedA, curr := ra }) ∧
        LFSR.random 8 { seed := seedB, curr := b } = .ok (rb, { seed := seedB, curr := rb }) ∧
        LFSR.random 8 { seed := seedAB, curr := a ^^^ b }
          = .ok (ra ^^^ rb, { seed := seedAB, curr := ra ^^^ rb })) ∧
      (∀ v, addP 8 ((v <<< 1) % 2 ^ promotedBits 8) (decide (v &&& 1 ≠ 0)).toNat
        = ((v <<< 1) % 2 ^ 64) ||| (v &&& 1)) := by
  refine ⟨⟨advance64 a, advance64 b, random_eight _, random_eight _, ?_⟩, addP_feedback_eq_or⟩
  rw [random_eight]
  simp only [advance64_xor a b]

end DiceForge
